import Mathlib

/-!
# stayradiated/dataloader : shallow embedding

Embedding of `dataloader.go`, `future.go`, `map.go` and `queue.go`.

* Go values of type `interface{}` are `Value`; a Go `error` result is
  `Option GoError` (`none` is the nil error).
* The closure variables `c`, `resultValue`, `resultError` that `Load` allocates
  for one future form a `Cell`; cells live in a heap (`DataLoader.cells`) and a
  queue item's `Resolve` callback is identified with the cell it writes.
* The caller supplied batch function may be stateful: it threads a world `W`.
  `DataLoader.calls` logs the key list of every invocation.
-/

namespace Dataloader

/-- A non-nil Go `error`, identified by its message. -/
structure GoError where
  text : String
deriving DecidableEq, Repr

/-- A Go `interface{}` value: nil, a number, a string, or a value whose dynamic
type implements `error`. -/
inductive Value where
  | nil
  | int (n : Int)
  | str (s : String)
  | error (e : GoError)
deriving DecidableEq, Repr

/-- The pair `(interface{}, error)` returned by `Load` and by a `Future`. -/
abbrev Result := Value × Option GoError

/-- Go `type BatchLoadFn func(keys []interface{}) ([]interface{}, error)`, with the
state it may read and write made explicit. -/
abbrev BatchLoadFn (W : Type) := W → List Value → (List Value × Option GoError) × W

/-- The closure variables of one future made by `Load`: `resultValue`,
`resultError`, and the channel `c` (`closes` counts the `close(c)` executed; the
channel is closed once it is positive, and Go panics on a second close). -/
structure Cell where
  resultValue : Value
  resultError : Option GoError
  closes : Nat
deriving DecidableEq, Repr

/-- Go `type Future func() (interface{}, error)`: the three closures the package
builds. -/
inductive Future where
  | value (v : Value)
  | error (e : GoError)
  | chan (c : Nat)
deriving DecidableEq, Repr

/-- Go `NewFutureValue`. -/
def NewFutureValue (value : Value) : Future := Future.value value

/-- Go `NewFutureError`. -/
def NewFutureError (err : GoError) : Future := Future.error err

/-- Calling a future: `none` when the call blocks on `<-c` (channel not closed). -/
def Future.call (cells : List Cell) : Future → Option Result
  | Future.value v => some (v, none)
  | Future.error e => some (Value.nil, some e)
  | Future.chan c =>
    match cells[c]? with
    | some cell => if 0 < cell.closes then some (cell.resultValue, cell.resultError) else none
    | none => none

/-- Go `type Map struct`: the Go map `m` (absent keys read as nil, here `none`). -/
structure Map where
  m : Value → Option Future

/-- Go `newMap`. -/
def newMap : Map := ⟨fun _ => none⟩

/-- Go `Map.Get`. -/
def Map.Get (m : Map) (key : Value) : Option Future := m.m key

/-- Go `Map.Set`. -/
def Map.Set (m : Map) (key : Value) (value : Future) : Map :=
  ⟨fun k => if k = key then some value else m.m k⟩

/-- Go `Map.Delete`. Its receiver is a `Map` value: the copy shares the mutex pointer
`x` and the map `m` with the original, so the entry is deleted from the shared map. -/
def Map.Delete (m : Map) (key : Value) : Map :=
  ⟨fun k => if k = key then none else m.m k⟩

/-- Go `Map.Clear`. -/
def Map.Clear (_m : Map) : Map := ⟨fun _ => none⟩

/-- Go `type Options struct`. -/
structure Options where
  Batch : Bool
  Cache : Bool
  CacheKeyFn : Option (Value → Value)
  CacheMap : Option Map

/-- Go `type LoaderQueueItem struct`; `Resolve` is the cell its closure writes. -/
structure LoaderQueueItem where
  Key : Value
  Resolve : Nat
deriving DecidableEq, Repr

/-- Go `type LoaderQueue struct`. -/
structure LoaderQueue where
  items : List LoaderQueueItem
deriving DecidableEq, Repr

/-- Go `newLoaderQueue`. -/
def newLoaderQueue : LoaderQueue := ⟨[]⟩

/-- Go `LoaderQueue.Push`. -/
def LoaderQueue.Push (q : LoaderQueue) (item : LoaderQueueItem) : LoaderQueue :=
  ⟨q.items ++ [item]⟩

/-- Go `LoaderQueue.DumpItems`: the old items and the emptied queue. -/
def LoaderQueue.DumpItems (q : LoaderQueue) : List LoaderQueueItem × LoaderQueue :=
  (q.items, ⟨[]⟩)

/-- Go `LoaderQueue.Size`. -/
def LoaderQueue.Size (q : LoaderQueue) : Nat := q.items.length

/-- Go `type DataLoader struct` (`mutex` is true while `d.mutex` is locked), together
with the heap of future cells, the batch function's world and the call log. -/
structure DataLoader (W : Type) where
  mutex : Bool
  batchLoadFn : BatchLoadFn W
  options : Option Options
  futureCache : Map
  queue : LoaderQueue
  cells : List Cell
  world : W
  calls : List (List Value)

variable {W : Type}

/-- Go `NewDataLoader` (the `CacheMap` option is not read: the cache is `newMap()`). -/
def NewDataLoader (fn : BatchLoadFn W) (options : Option Options) (w : W) : DataLoader W :=
  { mutex := false, batchLoadFn := fn, options := options, futureCache := newMap,
    queue := newLoaderQueue, cells := [], world := w, calls := [] }

/-- The `cacheKey` computed at the top of `Load`, `Clear` and `Prime`. -/
def cacheKeyOf (options : Option Options) (key : Value) : Value :=
  match options with
  | some o =>
    match o.CacheKeyFn with
    | some f => f key
    | none => key
  | none => key

/-- Go `shouldBatch := d.options == nil || d.options.Batch == true`. -/
def shouldBatch (options : Option Options) : Bool :=
  match options with
  | none => true
  | some o => o.Batch

/-- Go `shouldCache := d.options == nil || d.options.Cache == true`. -/
def shouldCache (options : Option Options) : Bool :=
  match options with
  | none => true
  | some o => o.Cache

/-- Go `DataLoader.Clear`. -/
def Clear (d : DataLoader W) (key : Value) : DataLoader W :=
  { d with futureCache := d.futureCache.Delete (cacheKeyOf d.options key) }

/-- Go `DataLoader.ClearAll`. -/
def ClearAll (d : DataLoader W) : DataLoader W :=
  { d with futureCache := d.futureCache.Clear }

/-- Go `DataLoader.Prime`. -/
def Prime (d : DataLoader W) (key : Value) (value : Value) : DataLoader W :=
  let cacheKey := cacheKeyOf d.options key
  match d.futureCache.Get cacheKey with
  | none =>
    let future := match value with
      | Value.error err => NewFutureError err
      | v => NewFutureValue v
    { d with futureCache := d.futureCache.Set cacheKey future }
  | some _ => d

/-- The `Resolve` closure of a queue item, run on the cell heap:
`resultValue = value; resultError = err; close(c)`. -/
def resolveCell (cells : List Cell) (c : Nat) (value : Value) (err : Option GoError) :
    List Cell :=
  match cells[c]? with
  | some cell => cells.set c ⟨value, err, cell.closes + 1⟩
  | none => cells

/-- Go `failedDispatch`: clear and reject every item, in order. -/
def failedDispatch (d : DataLoader W) (items : List LoaderQueueItem) (err : GoError) :
    DataLoader W :=
  items.foldl
    (fun d item =>
      let d1 := Clear d item.Key
      { d1 with cells := resolveCell d1.cells item.Resolve Value.nil (some err) })
    d

/-- Rendering of a value list by the `%s` verb in the shape error message. -/
def sprintValues (vs : List Value) : String :=
  "[" ++ " ".intercalate (vs.map fun v =>
    match v with
    | Value.nil => "%!s(<nil>)"
    | Value.int n => "%!s(int=" ++ toString n ++ ")"
    | Value.str s => s
    | Value.error e => e.text) ++ "]"

/-- The error built by `fmt.Errorf` when the result length differs from the key
length. -/
def shapeError (keys values : List Value) : GoError :=
  ⟨"DataLoader must be constructed with a function which accepts " ++
    "Array<key> and returns Future<Array<value>>, but the function did " ++
    "not return a Future of an Array of the same length as the Array " ++
    "of keys. \n\nKeys:\n" ++ sprintValues keys ++ " \n\nValues:\n" ++ sprintValues values⟩

/-- The error `Load` returns for a nil key. -/
def nilKeyError : GoError :=
  ⟨"The Load() function must be called with a value but got: %!s(<nil>)"⟩

/-- The loop at the end of `dispatchQueue`: resolve or reject each item with the
value at its position. -/
def resolveItems (cells : List Cell) : List LoaderQueueItem → List Value → List Cell
  | item :: items, value :: values =>
    match value with
    | Value.error e => resolveItems (resolveCell cells item.Resolve Value.nil (some e)) items values
    | v => resolveItems (resolveCell cells item.Resolve v none) items values
  | _, _ => cells

/-- First statement of `dispatchQueue`: `items := loader.queue.DumpItems()`. -/
def dispatchBegin (d : DataLoader W) : List LoaderQueueItem × DataLoader W :=
  let r := d.queue.DumpItems
  (r.1, { d with queue := r.2 })

/-- The rest of `dispatchQueue`: collect the keys, call the batch function, then
fail the whole batch or resolve item by item. -/
def dispatchEnd (d : DataLoader W) (items : List LoaderQueueItem) : DataLoader W :=
  let keys := items.map fun item => item.Key
  let r := d.batchLoadFn d.world keys
  let values := r.1.1
  let d1 := { d with world := r.2, calls := d.calls ++ [keys] }
  match r.1.2 with
  | some err => failedDispatch d1 items err
  | none =>
    if values.length ≠ keys.length then
      failedDispatch d1 items (shapeError keys values)
    else
      { d1 with cells := resolveItems d1.cells items values }

/-- Go `dispatchQueue`. -/
def dispatchQueue (d : DataLoader W) : DataLoader W :=
  let r := dispatchBegin d
  dispatchEnd r.2 r.1

/-- How `Load` left its locked section: what lines 96-106 decided. -/
inductive Dispatch where
  | notScheduled
  | deferred
  | immediate
deriving DecidableEq, Repr

/-- Lines 53-106 of `Load`, run with `d.mutex` held, up to (not including) the
dispatch itself: the future to read, the dispatch decision and the new state. -/
def loadSection (d : DataLoader W) (key : Value) : Future × Dispatch × DataLoader W :=
  let cacheKey := cacheKeyOf d.options key
  let cached := if shouldCache d.options then d.futureCache.Get cacheKey else none
  match cached with
  | some cachedFuture => (cachedFuture, Dispatch.notScheduled, d)
  | none =>
    let c := d.cells.length
    let future := Future.chan c
    let d1 := { d with cells := d.cells ++ [Cell.mk Value.nil none 0] }
    let d2 := if shouldCache d.options then
        { d1 with futureCache := d1.futureCache.Set cacheKey future } else d1
    let d3 := { d2 with queue := d2.queue.Push ⟨key, c⟩ }
    if d3.queue.Size = 1 then
      if shouldBatch d.options then (future, Dispatch.deferred, d3)
      else (future, Dispatch.immediate, d3)
    else (future, Dispatch.notScheduled, d3)

/-- Go `DataLoader.Load` called by one caller while nothing else runs on the loader.
The dispatch it scheduled (the goroutine of `enqueuePostFutureJob`, or the direct
call) is then the only thing that can run while the caller sits in `future()`.
The result is `none` when the call never returns (blocked in `Lock` or on `<-c`);
the mutex is released by the deferred `Unlock` only when it returns. -/
def Load (d : DataLoader W) (key : Value) : Option Result × DataLoader W :=
  if key = Value.nil then (some (Value.nil, some nilKeyError), d)
  else if d.mutex then (none, d)
  else
    let r := loadSection { d with mutex := true } key
    let d1 := match r.2.1 with
      | Dispatch.notScheduled => r.2.2
      | _ => dispatchQueue r.2.2
    match r.1.call d1.cells with
    | some res => (some res, { d1 with mutex := false })
    | none => (none, d1)

/-- The loader right after the locked section of a missing `Load` and the
`DumpItems` of its dispatch. -/
def afterPush (d : DataLoader W) (key : Value) : DataLoader W :=
  { d with
    mutex := true
    cells := d.cells ++ [Cell.mk Value.nil none 0]
    futureCache := if shouldCache d.options then
        d.futureCache.Set (cacheKeyOf d.options key) (Future.chan d.cells.length)
      else d.futureCache }

/-- The pair an item is resolved with from the value at its position in a batch
result: the `switch value := values[i].(type)` of `dispatchQueue`. -/
def resultOf (value : Value) : Result :=
  match value with
  | Value.error e => (Value.nil, some e)
  | v => (v, none)

/-- A batch function that doubles numeric keys (other keys are returned as they
are); it has no state. -/
def doubleKeys : BatchLoadFn Unit := fun w keys =>
  ((keys.map fun k => match k with
    | Value.int n => Value.int (2 * n)
    | v => v, none), w)

/-- The future `Prime` stores for a payload: `NewFutureError` for an error value,
`NewFutureValue` otherwise. -/
def primedFuture (value : Value) : Future :=
  match value with
  | Value.error err => NewFutureError err
  | v => NewFutureValue v

/-- A batch function that fails as a whole with the error `boom`, whatever the
keys. -/
def failKeys : BatchLoadFn Unit := fun w _ => (([], some ⟨"boom"⟩), w)

/-- A loader whose queue holds two pending items (keys 1 and 2, cells 0 and 1),
with memo entries for both, and whose batch function fails. -/
def twoPending : DataLoader Unit :=
  { NewDataLoader failKeys none () with
    mutex := true
    futureCache := (newMap.Set (Value.int 1) (Future.chan 0)).Set (Value.int 2) (Future.chan 1)
    queue := ⟨[⟨Value.int 1, 0⟩, ⟨Value.int 2, 1⟩]⟩
    cells := [Cell.mk Value.nil none 0, Cell.mk Value.nil none 0] }

/-- A public operation of the loader, as issued by a caller. -/
inductive Op where
  | load (key : Value)
  | clear (key : Value)
  | clearAll
  | prime (key : Value) (value : Value)
deriving DecidableEq, Repr

/-- The loader state after one operation issued and completed by a lone caller. -/
def Op.run (d : DataLoader W) : Op → DataLoader W
  | Op.load key => (Load d key).2
  | Op.clear key => Clear d key
  | Op.clearAll => ClearAll d
  | Op.prime key value => Prime d key value

/-- The loader state after a sequence of operations, one after the other. -/
def runOps (d : DataLoader W) (ops : List Op) : DataLoader W :=
  ops.foldl Op.run d

/-- The operations that remove the memo entry under cache key `ck`, when issued on
a loader with the given options: `ClearAll`, and `Clear` of a key with that cache
key. -/
def Op.evicts (options : Option Options) (ck : Value) : Op → Bool
  | Op.clearAll => true
  | Op.clear key => decide (cacheKeyOf options key = ck)
  | _ => false

/-- A loader at rest, between the calls of a lone caller: no `Load` holds the
mutex, the queue is drained, every future cell made so far is resolved, and the
channel futures in the memo store refer to cells that exist. -/
structure AtRest (d : DataLoader W) : Prop where
  mutex : d.mutex = false
  queue : d.queue.items = []
  closed : ∀ (c : Nat) (cell : Cell), d.cells[c]? = some cell → 0 < cell.closes
  cached : ∀ (ck : Value) (c : Nat), d.futureCache.Get ck = some (Future.chan c) → c < d.cells.length

/-- A batch function that answers key 2 with the error value `no such row` and
every other key with itself. -/
def rejectTwo : BatchLoadFn Unit := fun w keys =>
  ((keys.map fun k => if k = Value.int 2 then Value.error ⟨"no such row"⟩ else k, none), w)

/-! ## Concurrent callers

The goroutines that run on one loader, each with the point it has reached. A step
is one of the pieces of the source that run under a mutex (the section of `Load`
under `d.mutex`, one memo store or queue method), the call of the batch function
with the fan-out of its result, or a read of a future. -/

/-- A goroutine: a caller of a public operation, or a goroutine started by
`go enqueuePostFutureJob(...)`. -/
inductive Thread where
  /-- The operation was called; for `Load`, the caller has not passed
  `d.mutex.Lock()` yet. -/
  | called (op : Op)
  /-- A `Load` with batching off, inside its own `dispatchQueue(d)` after
  `DumpItems`, holding `d.mutex`. -/
  | dispatching (future : Future) (items : List LoaderQueueItem)
  /-- A `Load` at `return future()` (or `return cachedFuture.(Future)()`), holding
  `d.mutex` until the read returns. -/
  | reading (future : Future)
  /-- The operation returned (`Load` with its result). -/
  | returned (res : Option Result)
  /-- The dispatch goroutine before its timer fires. -/
  | jobWaiting
  /-- The dispatch goroutine inside `dispatchQueue(d)` after `DumpItems`. -/
  | jobDispatching (items : List LoaderQueueItem)
  /-- The dispatch goroutine has ended. -/
  | jobDone
deriving DecidableEq, Repr

/-- One loader and the goroutines running on it. -/
structure System (W : Type) where
  loader : DataLoader W
  threads : List Thread

/-- The first step of a caller of `Load(key)`: the nil check, `Lock` (the step is
not enabled while the mutex is held), the locked section and, with batching off,
the `DumpItems` of its own dispatch; with batching on, the dispatch goroutine is
started. -/
def stepLoad (s : System W) (i : Nat) (key : Value) : Option (System W) :=
  if key = Value.nil then
    some { s with threads := s.threads.set i (Thread.returned (some (Value.nil, some nilKeyError))) }
  else if s.loader.mutex then none
  else
    let r := loadSection { s.loader with mutex := true } key
    match r.2.1 with
    | Dispatch.notScheduled => some ⟨r.2.2, s.threads.set i (Thread.reading r.1)⟩
    | Dispatch.deferred => some ⟨r.2.2, s.threads.set i (Thread.reading r.1) ++ [Thread.jobWaiting]⟩
    | Dispatch.immediate =>
      let b := dispatchBegin r.2.2
      some ⟨b.2, s.threads.set i (Thread.dispatching r.1 b.1)⟩

/-- The next step of goroutine `i`, or `none` when it is blocked or has ended. -/
def step (s : System W) (i : Nat) : Option (System W) :=
  match s.threads[i]? with
  | none => none
  | some (Thread.called (Op.load key)) => stepLoad s i key
  | some (Thread.called (Op.clear key)) =>
    some ⟨Clear s.loader key, s.threads.set i (Thread.returned none)⟩
  | some (Thread.called Op.clearAll) =>
    some ⟨ClearAll s.loader, s.threads.set i (Thread.returned none)⟩
  | some (Thread.called (Op.prime key value)) =>
    some ⟨Prime s.loader key value, s.threads.set i (Thread.returned none)⟩
  | some (Thread.dispatching future items) =>
    some ⟨dispatchEnd s.loader items, s.threads.set i (Thread.reading future)⟩
  | some (Thread.reading future) =>
    match future.call s.loader.cells with
    | some res =>
      some ⟨{ s.loader with mutex := false }, s.threads.set i (Thread.returned (some res))⟩
    | none => none
  | some Thread.jobWaiting =>
    let b := dispatchBegin s.loader
    some ⟨b.2, s.threads.set i (Thread.jobDispatching b.1)⟩
  | some (Thread.jobDispatching items) =>
    some ⟨dispatchEnd s.loader items, s.threads.set i Thread.jobDone⟩
  | some (Thread.returned _) => none
  | some Thread.jobDone => none

/-- Run a schedule: the goroutines named in turn take their next step; a
goroutine that is blocked or has ended when its turn comes is skipped. -/
def run (s : System W) (schedule : List Nat) : System W :=
  schedule.foldl (fun s i => (step s i).getD s) s

/-- A new loader with one caller per operation, each about to start. -/
def start (fn : BatchLoadFn W) (options : Option Options) (w : W) (ops : List Op) : System W :=
  ⟨NewDataLoader fn options w, ops.map Thread.called⟩

/-- A goroutine that is neither inside `Load` past `Lock` nor a live dispatch
goroutine. -/
def Thread.passive : Thread → Bool
  | Thread.called _ => true
  | Thread.returned _ => true
  | Thread.jobDone => true
  | _ => false

/-- Every goroutine whose index is not listed is passive. -/
def Others (ts : List Thread) (act : List Nat) : Prop :=
  ∀ (i : Nat) (t : Thread), ts[i]? = some t → i ∉ act → t.passive = true

/-- The five situations a running loader can be in: nobody is inside `Load`; one
`Load` (goroutine `h`) holds the mutex and waits for its own item while its
dispatch goroutine `j` sleeps, or has drained that one item and is calling the
batch function; or `h` makes that call itself (batching off); or `h` is reading a
future with nothing left to dispatch. -/
inductive Phase (s : System W) : Prop where
  | idle (hm : s.loader.mutex = false) (hq : s.loader.queue.items = [])
      (ho : Others s.threads []) : Phase s
  | waiting (h j : Nat) (k : Value) (c : Nat) (hm : s.loader.mutex = true)
      (hq : s.loader.queue.items = [⟨k, c⟩])
      (hh : s.threads[h]? = some (Thread.reading (Future.chan c)))
      (hj : s.threads[j]? = some Thread.jobWaiting)
      (hb : (Future.chan c).call s.loader.cells = none)
      (ho : Others s.threads [h, j]) : Phase s
  | fetching (h j : Nat) (k : Value) (c : Nat) (hm : s.loader.mutex = true)
      (hq : s.loader.queue.items = [])
      (hh : s.threads[h]? = some (Thread.reading (Future.chan c)))
      (hj : s.threads[j]? = some (Thread.jobDispatching [⟨k, c⟩]))
      (hb : (Future.chan c).call s.loader.cells = none)
      (ho : Others s.threads [h, j]) : Phase s
  | fetchingOwn (h : Nat) (k : Value) (c : Nat) (hm : s.loader.mutex = true)
      (hq : s.loader.queue.items = [])
      (hh : s.threads[h]? = some (Thread.dispatching (Future.chan c) [⟨k, c⟩]))
      (ho : Others s.threads [h]) : Phase s
  | reading (h : Nat) (f : Future) (hm : s.loader.mutex = true)
      (hq : s.loader.queue.items = [])
      (hh : s.threads[h]? = some (Thread.reading f))
      (ho : Others s.threads [h]) : Phase s

/-- The invariant of a running loader: it is in one of the five phases, and every
key list the batch function has received so far has exactly one key. -/
def Inv (s : System W) : Prop :=
  Phase s ∧ ∀ ks ∈ s.loader.calls, ks.length = 1

/-- The loader right after the locked section of a missing `Load` on an empty
queue: the new cell, the memo entry, and the one pending item. -/
def afterSection (d : DataLoader W) (key : Value) : DataLoader W :=
  { d with
    cells := d.cells ++ [Cell.mk Value.nil none 0]
    futureCache := if shouldCache d.options then
        d.futureCache.Set (cacheKeyOf d.options key) (Future.chan d.cells.length)
      else d.futureCache
    queue := ⟨[⟨key, d.cells.length⟩]⟩ }

/-- A stateful batch function: its first call fails as a whole with `boom`, every
later call returns the keys themselves; the world counts the calls. -/
def failFirst : BatchLoadFn Nat := fun n keys =>
  if n = 0 then (([], some ⟨"boom"⟩), 1) else ((keys, none), n + 1)

/-- A loader option value with both flags off and no key transform: the Go literal
`&Options{}`. -/
def optionsOff : Options := { Batch := false, Cache := false, CacheKeyFn := none, CacheMap := none }

/-- A key transform that maps every number to its absolute value. -/
def absKey : Value → Value
  | Value.int n => Value.int (Int.natAbs n)
  | v => v

/-- The Go literal `&Options{Batch: true, Cache: true, CacheKeyFn: absKey}`. -/
def optionsAbs : Options :=
  { Batch := true, Cache := true, CacheKeyFn := some absKey, CacheMap := none }

/-- A loader whose queue holds two pending items (keys 1 and 2, cells 0 and 1),
with the batch function that rejects key 2. -/
def twoPendingOk : DataLoader Unit :=
  { NewDataLoader rejectTwo none () with
    mutex := true
    futureCache := (newMap.Set (Value.int 1) (Future.chan 0)).Set (Value.int 2) (Future.chan 1)
    queue := ⟨[⟨Value.int 1, 0⟩, ⟨Value.int 2, 1⟩]⟩
    cells := [Cell.mk Value.nil none 0, Cell.mk Value.nil none 0] }

/-- An operation on the pending queue. -/
inductive QueueOp where
  | push (item : LoaderQueueItem)
  | dump
deriving DecidableEq, Repr

/-- One queue operation on the queue and the list of drains returned so far. -/
def QueueOp.run (st : LoaderQueue × List (List LoaderQueueItem)) :
    QueueOp → LoaderQueue × List (List LoaderQueueItem)
  | QueueOp.push item => (st.1.Push item, st.2)
  | QueueOp.dump => (st.1.DumpItems.2, st.2 ++ [st.1.DumpItems.1])

/-- The queue after a sequence of `Push` and `DumpItems`, from `newLoaderQueue`,
with the drains the `DumpItems` returned, in order. -/
def runQueue (ops : List QueueOp) : LoaderQueue × List (List LoaderQueueItem) :=
  ops.foldl QueueOp.run (newLoaderQueue, [])

/-- The item an operation pushes, if it is a push. -/
def QueueOp.pushed : QueueOp → Option LoaderQueueItem
  | QueueOp.push item => some item
  | QueueOp.dump => none

/-- Specification: the items pushed since the last drain (or since creation), in
push order, read off the operation sequence. -/
def pushedSinceLastDump (ops : List QueueOp) : List LoaderQueueItem :=
  ((ops.reverse.takeWhile fun op => op.pushed.isSome).reverse).filterMap QueueOp.pushed

/-- Specification: all the items pushed by an operation sequence, in push order. -/
def allPushed (ops : List QueueOp) : List LoaderQueueItem :=
  ops.filterMap QueueOp.pushed

/-- Go `type IndexedValue struct`. -/
structure IndexedValue where
  Index : Nat
  Value : Dataloader.Value
deriving DecidableEq, Repr

/-- What one goroutine of `FutureAll` sends: an `IndexedValue` on `resc`, or an
error on `errc`. -/
inductive Message where
  | res (value : IndexedValue)
  | err (err : GoError)
deriving DecidableEq, Repr

/-- The body of the goroutine `FutureAll` starts for index `i`, given what its call
`fn(key)` returned: an error goes to `errc`, a value to `resc` with its index. -/
def goroutineSend (i : Nat) (r : Result) : Message :=
  match r.2 with
  | some err => Message.err err
  | none => Message.res ⟨i, r.1⟩

/-- The receive loop of `FutureAll`: `n` iterations are left, `msgs` are the sends
in the order the `select` takes them. A received value is stored at its index, a
received error ends the call with `(nil, err)` (the nil slice is `[]`); the result
is `none` when the loop blocks because no goroutine is left to send. -/
def receiveLoop : Nat → List Message → List Value → Option (List Value × Option GoError)
  | 0, _, values => some (values, none)
  | _ + 1, [], _ => none
  | n + 1, Message.res value :: msgs, values =>
    receiveLoop n msgs (values.set value.Index value.Value)
  | _ + 1, Message.err err :: _, _ => some ([], some err)

/-- Go `FutureAll`, given for each goroutine what its call of `fn` returned
(`results`, by index) and the order in which the goroutines get to send
(`order`, a list of indices). -/
def FutureAllOf (results : List Result) (order : List Nat) :
    Option (List Value × Option GoError) :=
  receiveLoop results.length
    (order.filterMap fun i => (results[i]?).map (goroutineSend i))
    (List.replicate results.length Value.nil)

/-- Go `FutureAll(keys, fn)` for a function `fn` whose result depends on the key
only. -/
def FutureAll (keys : List Value) (fn : Value → Result) (order : List Nat) :
    Option (List Value × Option GoError) :=
  FutureAllOf (keys.map fn) order

/-- The calls `d.Load(keys[i])` made by the goroutines of `LoadMany`. A `Load` holds
`d.mutex` from `Lock` until it returns, so the calls run one after the other, in
the order `exec` in which the goroutines get the mutex. The result maps each index
to what its call returned (`none` if it has not returned), with the loader state
after the calls. -/
def loadEach (d : DataLoader W) (keys : List Value) (exec : List Nat) :
    (Nat → Option Result) × DataLoader W :=
  exec.foldl
    (fun st i =>
      match keys[i]? with
      | none => st
      | some key => (fun j => if j = i then (Load st.2 key).1 else st.1 j, (Load st.2 key).2))
    (fun _ => none, d)

/-- Go `DataLoader.LoadMany`: `FutureAll(keys, d.Load)`, with the order `exec` in
which the goroutines run their `Load` and the order `order` in which they send. -/
def LoadMany (d : DataLoader W) (keys : List Value) (exec order : List Nat) :
    Option (List Value × Option GoError) × DataLoader W :=
  (receiveLoop keys.length
      (order.filterMap fun i => ((loadEach d keys exec).1 i).map (goroutineSend i))
      (List.replicate keys.length Value.nil),
    (loadEach d keys exec).2)

/-- The Go literal `&Options{CacheKeyFn: f}`: the fields left out of a composite
literal take their zero value, `false` for `Batch` and `Cache`, nil for
`CacheMap`. -/
def optionsKeyFnOnly (f : Value → Value) : Options :=
  { Batch := false, Cache := false, CacheKeyFn := some f, CacheMap := none }

/-- A memo store that already holds the resolved value 5 under key 1. -/
def presetMap : Map := newMap.Set (Value.int 1) (Future.value (Value.int 5))

/-- The Go literal `&Options{Batch: true, Cache: true, CacheMap: presetMap}`. -/
def optionsWithMap : Options :=
  { Batch := true, Cache := true, CacheKeyFn := none, CacheMap := some presetMap }

/-! ## Memo store lemmas -/

theorem Map.ext_get {m1 m2 : Map} (h : ∀ k, m1.Get k = m2.Get k) : m1 = m2 := by
  cases m1; cases m2
  simp only [Map.Get] at h
  simp only [Map.mk.injEq]
  exact funext h

theorem Map.Get_Set_self (m : Map) (k : Value) (f : Future) : (m.Set k f).Get k = some f := by
  simp [Map.Get, Map.Set]

theorem Map.Get_Set_other (m : Map) {k k2 : Value} (f : Future) (h : k2 ≠ k) :
    (m.Set k f).Get k2 = m.Get k2 := by
  simp [Map.Get, Map.Set, h]

theorem Map.Get_Delete_self (m : Map) (k : Value) : (m.Delete k).Get k = none := by
  simp [Map.Get, Map.Delete]

theorem Map.Get_Delete_other (m : Map) {k k2 : Value} (h : k2 ≠ k) :
    (m.Delete k).Get k2 = m.Get k2 := by
  simp [Map.Get, Map.Delete, h]

theorem Map.Delete_absent (m : Map) (k : Value) (h : m.Get k = none) : m.Delete k = m := by
  apply Map.ext_get
  intro k2
  by_cases hk : k2 = k
  · subst hk; rw [Map.Get_Delete_self, h]
  · exact Map.Get_Delete_other m hk

/-! ## Operations of a lone caller -/

/-- C10: `Load(nil)` returns `(nil, err)` with a non-nil error and leaves the whole
loader state (queue, memo store, call log of the batch function) as it was, in
every state and configuration. -/
theorem Load_nil_key (d : DataLoader W) :
    Load d Value.nil = (some (Value.nil, some nilKeyError), d) := by
  simp [Load]

/-- C9: after `Clear(k)` the memo store has no entry under the cache key of `k`,
entries under every other cache key are as before, the queue is unchanged, and
when there was no entry the loader state is unchanged. -/
theorem Clear_frame (d : DataLoader W) (key : Value) :
    (Clear d key).futureCache.Get (cacheKeyOf d.options key) = none ∧
    (∀ ck, ck ≠ cacheKeyOf d.options key →
      (Clear d key).futureCache.Get ck = d.futureCache.Get ck) ∧
    (Clear d key).queue = d.queue ∧
    (d.futureCache.Get (cacheKeyOf d.options key) = none → Clear d key = d) := by
  refine ⟨Map.Get_Delete_self _ _, fun ck h => Map.Get_Delete_other _ h, rfl, ?_⟩
  intro h
  simp only [Clear]
  rw [Map.Delete_absent _ _ h]

/-- Witness for C9 on a loader holding an entry for key 1 and none for key 2. -/
theorem Clear_frame_witness :
    (Clear (Prime (NewDataLoader (fun (w : Unit) _ => (([], none), w)) none ()) (Value.int 1)
        (Value.int 5)) (Value.int 1)).futureCache.Get (Value.int 1) = none ∧
    (Prime (NewDataLoader (fun (w : Unit) _ => (([], none), w)) none ()) (Value.int 1)
        (Value.int 5)).futureCache.Get (Value.int 1) = some (Future.value (Value.int 5)) :=
  ⟨(Clear_frame _ (Value.int 1)).1, by simp [Prime, NewDataLoader, newMap, Map.Get, Map.Set, cacheKeyOf, NewFutureValue]⟩

theorem Load_hit (d : DataLoader W) (key : Value) (f : Future) (hk : key ≠ Value.nil)
    (hm : d.mutex = false) (hc : shouldCache d.options = true)
    (h : d.futureCache.Get (cacheKeyOf d.options key) = some f) :
    Load d key = match f.call d.cells with
      | some res => (some res, d)
      | none => (none, { d with mutex := true }) := by
  cases d with
  | mk mutex fn options cache queue cells world calls =>
    simp only at hm hc h
    subst hm
    simp only [Load, hk, if_false, loadSection, hc, if_true, h, Bool.false_eq_true]

theorem Load_miss (d : DataLoader W) (key : Value) (hk : key ≠ Value.nil)
    (hm : d.mutex = false) (hq : d.queue.items = [])
    (h : shouldCache d.options = true → d.futureCache.Get (cacheKeyOf d.options key) = none) :
    Load d key =
      match (Future.chan d.cells.length).call
          (dispatchEnd (afterPush d key) [⟨key, d.cells.length⟩]).cells with
      | some res => (some res, { dispatchEnd (afterPush d key) [⟨key, d.cells.length⟩] with
          mutex := false })
      | none => (none, dispatchEnd (afterPush d key) [⟨key, d.cells.length⟩]) := by
  cases d with
  | mk mutex fn options cache queue cells world calls =>
    cases queue with
    | mk items =>
      simp only at hm hq h
      subst hm hq
      cases hc : shouldCache options
      · cases hb : shouldBatch options <;>
          simp [Load, hk, loadSection, hc, hb, afterPush, dispatchQueue, dispatchBegin,
            LoaderQueue.Push, LoaderQueue.Size, LoaderQueue.DumpItems]
      · have h2 := h hc
        cases hb : shouldBatch options <;>
          simp [Load, hk, loadSection, hc, hb, h2, afterPush, dispatchQueue, dispatchBegin,
            LoaderQueue.Push, LoaderQueue.Size, LoaderQueue.DumpItems]

/-- C7: when the cache key of `k` already has a memo entry, `Prime(k, v)` changes
nothing in the loader (the memo store included), so a later `Load(k)` behaves
exactly as without the `Prime`: with memoization enabled it returns what the
earlier entry resolves to, not `v`. -/
theorem Prime_existing (d : DataLoader W) (key value : Value) (f : Future)
    (h : d.futureCache.Get (cacheKeyOf d.options key) = some f) :
    Prime d key value = d ∧ Load (Prime d key value) key = Load d key ∧
    (key ≠ Value.nil → d.mutex = false → shouldCache d.options = true →
      (Load (Prime d key value) key).1 = f.call d.cells) := by
  have hp : Prime d key value = d := by simp [Prime, h]
  rw [hp]
  refine ⟨rfl, rfl, ?_⟩
  intro hk hm hc
  rw [Load_hit d key f hk hm hc h]
  cases f.call d.cells <;> rfl

/-- Witness for C7: key 1 primed with 5, then primed again with 9; `Load(1)` still
returns 5. -/
theorem Prime_existing_witness :
    (Load (Prime (Prime (NewDataLoader doubleKeys none ()) (Value.int 1) (Value.int 5))
      (Value.int 1) (Value.int 9)) (Value.int 1)).1 = some (Value.int 5, none) :=
  (Prime_existing (Prime (NewDataLoader doubleKeys none ()) (Value.int 1) (Value.int 5))
    (Value.int 1) (Value.int 9) (Future.value (Value.int 5)) rfl).2.2 (by simp) rfl rfl

theorem resolveCell_last (cells : List Cell) (a : Value) (b : Option GoError) (n : Nat)
    (v : Value) (e : Option GoError) :
    resolveCell (cells ++ [Cell.mk a b n]) cells.length v e = cells ++ [Cell.mk v e (n + 1)] := by
  simp [resolveCell]

theorem call_chan_last (cells : List Cell) (v : Value) (e : Option GoError) (n : Nat) :
    (Future.chan cells.length).call (cells ++ [Cell.mk v e (n + 1)]) = some (v, e) := by
  simp [Future.call]

/-- The memo store after the locked section of a missing `Load`. -/
theorem afterPush_cache (d : DataLoader W) (key : Value) :
    (afterPush d key).futureCache = if shouldCache d.options then
        d.futureCache.Set (cacheKeyOf d.options key) (Future.chan d.cells.length)
      else d.futureCache := rfl

theorem Load_miss_err (d : DataLoader W) (key : Value) (hk : key ≠ Value.nil)
    (hm : d.mutex = false) (hq : d.queue.items = [])
    (h : shouldCache d.options = true → d.futureCache.Get (cacheKeyOf d.options key) = none)
    (e : GoError) (he : (d.batchLoadFn d.world [key]).1.2 = some e) :
    Load d key = (some (Value.nil, some e),
      { d with
        cells := d.cells ++ [Cell.mk Value.nil (some e) 1]
        futureCache := (afterPush d key).futureCache.Delete (cacheKeyOf d.options key)
        world := (d.batchLoadFn d.world [key]).2
        calls := d.calls ++ [[key]] }) := by
  rw [Load_miss d key hk hm hq h]
  have : dispatchEnd (afterPush d key) [⟨key, d.cells.length⟩] =
      { d with
        mutex := true
        cells := d.cells ++ [Cell.mk Value.nil (some e) 1]
        futureCache := (afterPush d key).futureCache.Delete (cacheKeyOf d.options key)
        world := (d.batchLoadFn d.world [key]).2
        calls := d.calls ++ [[key]] } := by
    simp [dispatchEnd, afterPush, he, failedDispatch, Clear, resolveCell]
  rw [this]
  simp only [call_chan_last, hm]

theorem Load_miss_shape (d : DataLoader W) (key : Value) (hk : key ≠ Value.nil)
    (hm : d.mutex = false) (hq : d.queue.items = [])
    (h : shouldCache d.options = true → d.futureCache.Get (cacheKeyOf d.options key) = none)
    (he : (d.batchLoadFn d.world [key]).1.2 = none)
    (hl : (d.batchLoadFn d.world [key]).1.1.length ≠ 1) :
    Load d key = (some (Value.nil, some (shapeError [key] (d.batchLoadFn d.world [key]).1.1)),
      { d with
        cells := d.cells ++
          [Cell.mk Value.nil (some (shapeError [key] (d.batchLoadFn d.world [key]).1.1)) 1]
        futureCache := (afterPush d key).futureCache.Delete (cacheKeyOf d.options key)
        world := (d.batchLoadFn d.world [key]).2
        calls := d.calls ++ [[key]] }) := by
  rw [Load_miss d key hk hm hq h]
  have : dispatchEnd (afterPush d key) [⟨key, d.cells.length⟩] =
      { d with
        mutex := true
        cells := d.cells ++
          [Cell.mk Value.nil (some (shapeError [key] (d.batchLoadFn d.world [key]).1.1)) 1]
        futureCache := (afterPush d key).futureCache.Delete (cacheKeyOf d.options key)
        world := (d.batchLoadFn d.world [key]).2
        calls := d.calls ++ [[key]] } := by
    simp [dispatchEnd, afterPush, he, hl, failedDispatch, Clear, resolveCell]
  rw [this]
  simp only [call_chan_last, hm]

/-- A missing `Load` whose batch call succeeds with the one value `v`. -/
theorem Load_miss_ok (d : DataLoader W) (key : Value) (hk : key ≠ Value.nil)
    (hm : d.mutex = false) (hq : d.queue.items = [])
    (h : shouldCache d.options = true → d.futureCache.Get (cacheKeyOf d.options key) = none)
    (v : Value) (he : (d.batchLoadFn d.world [key]).1 = ([v], none)) :
    Load d key = (some (resultOf v),
      { d with
        cells := d.cells ++ [Cell.mk (resultOf v).1 (resultOf v).2 1]
        futureCache := (afterPush d key).futureCache
        world := (d.batchLoadFn d.world [key]).2
        calls := d.calls ++ [[key]] }) := by
  rw [Load_miss d key hk hm hq h]
  have : dispatchEnd (afterPush d key) [⟨key, d.cells.length⟩] =
      { d with
        mutex := true
        cells := d.cells ++ [Cell.mk (resultOf v).1 (resultOf v).2 1]
        futureCache := (afterPush d key).futureCache
        world := (d.batchLoadFn d.world [key]).2
        calls := d.calls ++ [[key]] } := by
    cases v <;> simp [dispatchEnd, afterPush, he, resolveItems, resolveCell, resultOf]
  rw [this]
  simp only [call_chan_last, hm]

/-- A `Load` that misses, on a loader at rest, returns, and the batch function was
called exactly once more, with the one-key list. -/
theorem Load_miss_total (d : DataLoader W) (key : Value) (hk : key ≠ Value.nil)
    (hm : d.mutex = false) (hq : d.queue.items = [])
    (h : shouldCache d.options = true → d.futureCache.Get (cacheKeyOf d.options key) = none) :
    ∃ res, (Load d key).1 = some res ∧ (Load d key).2.calls = d.calls ++ [[key]] ∧
      (Load d key).2.mutex = false ∧ (Load d key).2.queue.items = [] := by
  cases he : (d.batchLoadFn d.world [key]).1.2 with
  | some e =>
    rw [Load_miss_err d key hk hm hq h e he]
    exact ⟨_, rfl, rfl, hm, hq⟩
  | none =>
    by_cases hl : (d.batchLoadFn d.world [key]).1.1.length = 1
    · obtain ⟨v, hv⟩ := List.length_eq_one.mp hl
      have he2 : (d.batchLoadFn d.world [key]).1 = ([v], none) := Prod.ext hv he
      rw [Load_miss_ok d key hk hm hq h v he2]
      exact ⟨_, rfl, rfl, hm, hq⟩
    · rw [Load_miss_shape d key hk hm hq h he hl]
      exact ⟨_, rfl, rfl, hm, hq⟩

/-- C1: on a loader at rest (no `Load` in progress: mutex free, queue empty) with
an empty memo store, in any configuration, when the batch function answers the
key list of this load with no error and a list of the same length whose entry `v`
at the position of `k` is not an error value, `Load(k)` for a non-nil `k` returns
`(v, nil)`. -/
theorem Load_returns_batch_value (d : DataLoader W) (key v : Value) (hk : key ≠ Value.nil)
    (hm : d.mutex = false) (hq : d.queue.items = [])
    (hempty : ∀ ck, d.futureCache.Get ck = none)
    (hfn : (d.batchLoadFn d.world [key]).1 = ([v], none))
    (hv : ∀ e, v ≠ Value.error e) :
    (Load d key).1 = some (v, none) := by
  rw [Load_miss_ok d key hk hm hq (fun _ => hempty _) v hfn]
  cases v with
  | error e => exact absurd rfl (hv e)
  | nil => rfl
  | int n => rfl
  | str s => rfl

/-- Witness for C1: with the doubling batch function, `Load(3)` returns `(6, nil)`
and `Load(4)` returns `(8, nil)`. -/
theorem Load_returns_batch_value_witness :
    (Load (NewDataLoader doubleKeys none ()) (Value.int 3)).1 = some (Value.int 6, none) ∧
    (Load (NewDataLoader doubleKeys none ()) (Value.int 4)).1 = some (Value.int 8, none) :=
  ⟨Load_returns_batch_value _ (Value.int 3) (Value.int 6) (by simp) rfl rfl (fun _ => rfl) rfl
      (by simp),
   Load_returns_batch_value _ (Value.int 4) (Value.int 8) (by simp) rfl rfl (fun _ => rfl) rfl
      (by simp)⟩

/-- C6: with memoization enabled, on a loader with the mutex free, for a non-nil
key `k` without memo entry, `Prime(k, v)` followed by `Load(k)` returns `(nil, v)`
when `v` is an error value and `(v, nil)` otherwise; the `Load` leaves the state as
`Prime` left it, so the batch function is not invoked and the queue is not
pushed. -/
theorem Prime_then_Load (d : DataLoader W) (key value : Value) (hk : key ≠ Value.nil)
    (hm : d.mutex = false) (hc : shouldCache d.options = true)
    (h : d.futureCache.Get (cacheKeyOf d.options key) = none) :
    (∀ e, value = Value.error e →
      (Load (Prime d key value) key).1 = some (Value.nil, some e)) ∧
    ((∀ e, value ≠ Value.error e) → (Load (Prime d key value) key).1 = some (value, none)) ∧
    (Load (Prime d key value) key).2 = Prime d key value ∧
    (Load (Prime d key value) key).2.calls = d.calls ∧
    (Load (Prime d key value) key).2.world = d.world ∧
    (Load (Prime d key value) key).2.queue = d.queue := by
  have hp : Prime d key value =
      { d with
        futureCache := d.futureCache.Set (cacheKeyOf d.options key) (primedFuture value) } := by
    simp [Prime, h, primedFuture]
  have hget : (Prime d key value).futureCache.Get (cacheKeyOf (Prime d key value).options key) =
      some (primedFuture value) := by
    rw [hp]; exact Map.Get_Set_self _ _ _
  have hm2 : (Prime d key value).mutex = false := by rw [hp]; exact hm
  have hc2 : shouldCache (Prime d key value).options = true := by rw [hp]; exact hc
  have hL := Load_hit (Prime d key value) key _ hk hm2 hc2 hget
  have hcall : Load (Prime d key value) key = (some (resultOf value), Prime d key value) := by
    rw [hL]
    cases value <;> rfl
  rw [hcall]
  refine ⟨?_, ?_, rfl, ?_, ?_, ?_⟩
  · intro e he; subst he; rfl
  · intro hv
    cases value with
    | error e => exact absurd rfl (hv e)
    | nil => rfl
    | int n => rfl
    | str s => rfl
  · rw [hp]
  · rw [hp]
  · rw [hp]

/-- Witness for C6: priming key 1 with 5 on a fresh loader. -/
theorem Prime_then_Load_witness :
    (Load (Prime (NewDataLoader doubleKeys none ()) (Value.int 1) (Value.int 5))
      (Value.int 1)).1 = some (Value.int 5, none) :=
  (Prime_then_Load (NewDataLoader doubleKeys none ()) (Value.int 1) (Value.int 5) (by simp)
    rfl rfl rfl).2.1 (by simp)

/-- C8: on a loader at rest, `ClearAll()` leaves the memo store empty, and a
`Load(k)` of a non-nil key that follows returns after the batch function has been
invoked once more, with the key list `[k]`, whatever the memo store held before. -/
theorem ClearAll_then_Load (d : DataLoader W) (key : Value) (hk : key ≠ Value.nil)
    (hm : d.mutex = false) (hq : d.queue.items = []) :
    (∀ ck, (ClearAll d).futureCache.Get ck = none) ∧
    ∃ res, (Load (ClearAll d) key).1 = some res ∧
      (Load (ClearAll d) key).2.calls = d.calls ++ [[key]] := by
  refine ⟨fun _ => rfl, ?_⟩
  obtain ⟨res, h1, h2, -, -⟩ := Load_miss_total (ClearAll d) key hk hm hq (fun _ => rfl)
  exact ⟨res, h1, h2⟩

/-- Witness for C8: key 1 was primed right before the `ClearAll`. -/
theorem ClearAll_then_Load_witness :
    (Load (ClearAll (Prime (NewDataLoader doubleKeys none ()) (Value.int 1) (Value.int 5)))
      (Value.int 1)).2.calls = [[Value.int 1]] := by
  obtain ⟨_, _, h⟩ := (ClearAll_then_Load
    (Prime (NewDataLoader doubleKeys none ()) (Value.int 1) (Value.int 5)) (Value.int 1)
    (by simp) rfl rfl).2
  exact h

/-! ## Whole batch failure -/

theorem resolveCell_length (cells : List Cell) (c : Nat) (v : Value) (e : Option GoError) :
    (resolveCell cells c v e).length = cells.length := by
  unfold resolveCell
  cases cells[c]? <;> simp

theorem resolveCell_get_self (cells : List Cell) (c : Nat) (v : Value) (e : Option GoError)
    (hc : c < cells.length) :
    ∃ n, (resolveCell cells c v e)[c]? = some (Cell.mk v e (n + 1)) := by
  unfold resolveCell
  rw [List.getElem?_eq_getElem hc]
  exact ⟨(cells[c]).closes, by simp [hc]⟩

theorem resolveCell_get_other (cells : List Cell) {c c2 : Nat} (v : Value) (e : Option GoError)
    (h : c2 ≠ c) : (resolveCell cells c v e)[c2]? = cells[c2]? := by
  unfold resolveCell
  cases cells[c]? with
  | none => rfl
  | some cell => simp [List.getElem?_set, Ne.symm h]

theorem resolveCell_keeps (cells : List Cell) (c c2 : Nat) (v : Value) (e : Option GoError)
    (h : ∃ n, cells[c2]? = some (Cell.mk v e (n + 1))) :
    ∃ n, (resolveCell cells c v e)[c2]? = some (Cell.mk v e (n + 1)) := by
  by_cases hc : c2 = c
  · subst hc
    obtain ⟨n, hn⟩ := h
    have hlt : c2 < cells.length := by
      by_contra hge
      rw [List.getElem?_eq_none (by omega)] at hn
      exact absurd hn (by simp)
    exact resolveCell_get_self cells c2 v e hlt
  · rw [resolveCell_get_other cells v e hc]
    exact h

theorem failedDispatch_nil (d : DataLoader W) (err : GoError) : failedDispatch d [] err = d := rfl

theorem failedDispatch_cons (d : DataLoader W) (item : LoaderQueueItem)
    (items : List LoaderQueueItem) (err : GoError) :
    failedDispatch d (item :: items) err =
      failedDispatch
        { Clear d item.Key with
          cells := resolveCell d.cells item.Resolve Value.nil (some err) } items err := rfl

theorem failedDispatch_frame (d : DataLoader W) (items : List LoaderQueueItem) (err : GoError) :
    (failedDispatch d items err).options = d.options ∧
    (failedDispatch d items err).queue = d.queue ∧
    (failedDispatch d items err).calls = d.calls ∧
    (failedDispatch d items err).mutex = d.mutex ∧
    (failedDispatch d items err).world = d.world ∧
    (failedDispatch d items err).batchLoadFn = d.batchLoadFn ∧
    (failedDispatch d items err).cells.length = d.cells.length := by
  induction items generalizing d with
  | nil => exact ⟨rfl, rfl, rfl, rfl, rfl, rfl, rfl⟩
  | cons item items ih =>
    rw [failedDispatch_cons]
    obtain ⟨h1, h2, h3, h4, h5, h6, h7⟩ := ih
      { Clear d item.Key with cells := resolveCell d.cells item.Resolve Value.nil (some err) }
    refine ⟨h1, h2, h3, h4, h5, h6, ?_⟩
    rw [h7]
    exact resolveCell_length _ _ _ _

theorem failedDispatch_keeps_none (d : DataLoader W) (items : List LoaderQueueItem)
    (err : GoError) (ck : Value) (h : d.futureCache.Get ck = none) :
    (failedDispatch d items err).futureCache.Get ck = none := by
  induction items generalizing d with
  | nil => exact h
  | cons item items ih =>
    rw [failedDispatch_cons]
    apply ih
    show (d.futureCache.Delete (cacheKeyOf d.options item.Key)).Get ck = none
    by_cases hk : ck = cacheKeyOf d.options item.Key
    · rw [hk]; exact Map.Get_Delete_self _ _
    · rw [Map.Get_Delete_other _ hk]; exact h

theorem failedDispatch_clears (d : DataLoader W) (items : List LoaderQueueItem)
    (err : GoError) (item : LoaderQueueItem) (hi : item ∈ items) :
    (failedDispatch d items err).futureCache.Get (cacheKeyOf d.options item.Key) = none := by
  induction items generalizing d with
  | nil => exact absurd hi (List.not_mem_nil _)
  | cons i0 items ih =>
    rw [failedDispatch_cons]
    rcases List.mem_cons.mp hi with h | h
    · subst h
      apply failedDispatch_keeps_none
      exact Map.Get_Delete_self _ _
    · exact ih _ h

theorem failedDispatch_keeps_rejected (d : DataLoader W) (items : List LoaderQueueItem)
    (err : GoError) (c : Nat)
    (h : ∃ n, d.cells[c]? = some (Cell.mk Value.nil (some err) (n + 1))) :
    ∃ n, (failedDispatch d items err).cells[c]? =
      some (Cell.mk Value.nil (some err) (n + 1)) := by
  induction items generalizing d with
  | nil => exact h
  | cons i0 items ih =>
    rw [failedDispatch_cons]
    apply ih
    exact resolveCell_keeps d.cells i0.Resolve c Value.nil (some err) h

theorem failedDispatch_rejects (d : DataLoader W) (items : List LoaderQueueItem)
    (err : GoError) (item : LoaderQueueItem) (hi : item ∈ items)
    (hc : item.Resolve < d.cells.length) :
    ∃ n, (failedDispatch d items err).cells[item.Resolve]? =
      some (Cell.mk Value.nil (some err) (n + 1)) := by
  induction items generalizing d with
  | nil => exact absurd hi (List.not_mem_nil _)
  | cons i0 items ih =>
    rw [failedDispatch_cons]
    rcases List.mem_cons.mp hi with h | h
    · subst h
      apply failedDispatch_keeps_rejected
      exact resolveCell_get_self d.cells item.Resolve Value.nil (some err) hc
    · apply ih _ h
      show item.Resolve < (resolveCell d.cells i0.Resolve Value.nil (some err)).length
      rw [resolveCell_length]
      exact hc

theorem call_of_resolved (cells : List Cell) (c : Nat) (v : Value) (e : Option GoError)
    (h : ∃ n, cells[c]? = some (Cell.mk v e (n + 1))) :
    (Future.chan c).call cells = some (v, e) := by
  obtain ⟨n, hn⟩ := h
  simp [Future.call, hn]

theorem dispatchQueue_failed (d : DataLoader W) (err : GoError)
    (hfail : (d.batchLoadFn d.world (d.queue.items.map fun item => item.Key)).1.2 = some err ∨
      ((d.batchLoadFn d.world (d.queue.items.map fun item => item.Key)).1.2 = none ∧
        (d.batchLoadFn d.world (d.queue.items.map fun item => item.Key)).1.1.length ≠
          d.queue.items.length ∧
        err = shapeError (d.queue.items.map fun item => item.Key)
          (d.batchLoadFn d.world (d.queue.items.map fun item => item.Key)).1.1)) :
    dispatchQueue d = failedDispatch
      { d with
        queue := ⟨[]⟩
        world := (d.batchLoadFn d.world (d.queue.items.map fun item => item.Key)).2
        calls := d.calls ++ [d.queue.items.map fun item => item.Key] }
      d.queue.items err := by
  rcases hfail with h | ⟨h1, h2, h3⟩
  · simp [dispatchQueue, dispatchBegin, dispatchEnd, LoaderQueue.DumpItems, h]
  · simp [dispatchQueue, dispatchBegin, dispatchEnd, LoaderQueue.DumpItems, h1, h2, h3]

/-- C4: when the batch function of a dispatch returns an error, or a result list
whose length differs from the key list, every item of the dispatch is resolved
with `(nil, err)`, where `err` is the returned error, respectively the one shape
error; afterwards the memo store has no entry under the cache key of any item of
the dispatch, and once the mutex is free again a `Load` of such a (non-nil) key
returns after one more invocation of the batch function, with that key. -/
theorem dispatchQueue_whole_batch_failure (d : DataLoader W) (err : GoError)
    (hcells : ∀ item ∈ d.queue.items, item.Resolve < d.cells.length)
    (hfail : (d.batchLoadFn d.world (d.queue.items.map fun item => item.Key)).1.2 = some err ∨
      ((d.batchLoadFn d.world (d.queue.items.map fun item => item.Key)).1.2 = none ∧
        (d.batchLoadFn d.world (d.queue.items.map fun item => item.Key)).1.1.length ≠
          d.queue.items.length ∧
        err = shapeError (d.queue.items.map fun item => item.Key)
          (d.batchLoadFn d.world (d.queue.items.map fun item => item.Key)).1.1)) :
    (∀ item ∈ d.queue.items,
      (Future.chan item.Resolve).call (dispatchQueue d).cells = some (Value.nil, some err)) ∧
    (∀ item ∈ d.queue.items,
      (dispatchQueue d).futureCache.Get (cacheKeyOf d.options item.Key) = none) ∧
    (dispatchQueue d).calls = d.calls ++ [d.queue.items.map fun item => item.Key] ∧
    (∀ item ∈ d.queue.items, item.Key ≠ Value.nil →
      ∃ res, (Load { dispatchQueue d with mutex := false } item.Key).1 = some res ∧
        (Load { dispatchQueue d with mutex := false } item.Key).2.calls =
          (dispatchQueue d).calls ++ [[item.Key]]) := by
  have hd := dispatchQueue_failed d err hfail
  have hclear : ∀ item ∈ d.queue.items,
      (dispatchQueue d).futureCache.Get (cacheKeyOf d.options item.Key) = none := by
    intro item hi
    rw [hd]
    exact failedDispatch_clears _ _ err item hi
  have hfr := failedDispatch_frame
      { d with
        queue := ⟨[]⟩
        world := (d.batchLoadFn d.world (d.queue.items.map fun item => item.Key)).2
        calls := d.calls ++ [d.queue.items.map fun item => item.Key] }
      d.queue.items err
  rw [← hd] at hfr
  obtain ⟨hopt, hqueue, hcalls, -, -, -, -⟩ := hfr
  refine ⟨?_, hclear, hcalls, ?_⟩
  · intro item hi
    apply call_of_resolved
    rw [hd]
    exact failedDispatch_rejects _ _ err item hi (hcells item hi)
  · intro item hi hk
    have hq : ({ dispatchQueue d with mutex := false } : DataLoader W).queue.items = [] := by
      show (dispatchQueue d).queue.items = []
      rw [hqueue]
    have hmiss : shouldCache ({ dispatchQueue d with mutex := false } : DataLoader W).options
        = true → ({ dispatchQueue d with mutex := false } : DataLoader W).futureCache.Get
          (cacheKeyOf ({ dispatchQueue d with mutex := false } : DataLoader W).options
            item.Key) = none := by
      intro _
      show (dispatchQueue d).futureCache.Get (cacheKeyOf (dispatchQueue d).options item.Key)
        = none
      rw [hopt]
      exact hclear item hi
    obtain ⟨res, h1, h2, -, -⟩ :=
      Load_miss_total { dispatchQueue d with mutex := false } item.Key hk rfl hq hmiss
    exact ⟨res, h1, h2⟩

/-- Witness for C4: two pending items and a batch function that fails with
`boom`; both are rejected with it and both memo entries are gone. -/
theorem dispatchQueue_whole_batch_failure_witness :
    (∀ item ∈ twoPending.queue.items,
      (Future.chan item.Resolve).call (dispatchQueue twoPending).cells =
        some (Value.nil, some ⟨"boom"⟩)) ∧
    (∀ item ∈ twoPending.queue.items,
      (dispatchQueue twoPending).futureCache.Get (cacheKeyOf twoPending.options item.Key)
        = none) :=
  ⟨(dispatchQueue_whole_batch_failure twoPending ⟨"boom"⟩
      (by simp [twoPending, NewDataLoader]) (Or.inl rfl)).1,
   (dispatchQueue_whole_batch_failure twoPending ⟨"boom"⟩
      (by simp [twoPending, NewDataLoader]) (Or.inl rfl)).2.1⟩

/-! ## Loaders at rest -/

theorem atRest_new (fn : BatchLoadFn W) (options : Option Options) (w : W) :
    AtRest (NewDataLoader fn options w) :=
  ⟨rfl, rfl, fun c cell h => by simp [NewDataLoader] at h,
    fun ck c h => by simp [NewDataLoader, newMap, Map.Get] at h⟩

theorem atRest_Clear (d : DataLoader W) (key : Value) (h : AtRest d) : AtRest (Clear d key) := by
  refine ⟨h.mutex, h.queue, h.closed, ?_⟩
  intro ck c hget
  apply h.cached ck c
  by_cases hk : ck = cacheKeyOf d.options key
  · subst hk
    rw [show (Clear d key).futureCache.Get (cacheKeyOf d.options key) = none from
      Map.Get_Delete_self _ _] at hget
    exact absurd hget (by simp)
  · rw [← hget]
    exact (Map.Get_Delete_other _ hk).symm

theorem atRest_ClearAll (d : DataLoader W) (h : AtRest d) : AtRest (ClearAll d) :=
  ⟨h.mutex, h.queue, h.closed, fun ck c hget => by simp [ClearAll, Map.Clear, Map.Get] at hget⟩

theorem Prime_absent (d : DataLoader W) (key value : Value)
    (h : d.futureCache.Get (cacheKeyOf d.options key) = none) :
    Prime d key value =
      { d with
        futureCache := d.futureCache.Set (cacheKeyOf d.options key) (primedFuture value) } := by
  simp [Prime, h, primedFuture]

theorem Prime_present (d : DataLoader W) (key value : Value) (f : Future)
    (h : d.futureCache.Get (cacheKeyOf d.options key) = some f) : Prime d key value = d := by
  simp [Prime, h]

theorem primedFuture_ne_chan (value : Value) (c : Nat) : primedFuture value ≠ Future.chan c := by
  cases value <;> simp [primedFuture, NewFutureValue, NewFutureError]

theorem atRest_Prime (d : DataLoader W) (key value : Value) (h : AtRest d) :
    AtRest (Prime d key value) := by
  cases hg : d.futureCache.Get (cacheKeyOf d.options key) with
  | some f => rw [Prime_present d key value f hg]; exact h
  | none =>
    rw [Prime_absent d key value hg]
    refine ⟨h.mutex, h.queue, h.closed, ?_⟩
    intro ck c hget
    by_cases hk : ck = cacheKeyOf d.options key
    · subst hk
      rw [show (d.futureCache.Set (cacheKeyOf d.options key) (primedFuture value)).Get
          (cacheKeyOf d.options key) = some (primedFuture value) from
          Map.Get_Set_self _ _ _] at hget
      exact absurd (Option.some.inj hget) (primedFuture_ne_chan value c)
    · apply h.cached ck c
      rw [← hget]
      exact (Map.Get_Set_other _ _ hk).symm

theorem afterPush_cache_sub (d : DataLoader W) (key : Value) (ck : Value) (f : Future)
    (h : (afterPush d key).futureCache.Get ck = some f) :
    f = Future.chan d.cells.length ∨ d.futureCache.Get ck = some f := by
  rw [afterPush_cache] at h
  split at h
  · by_cases hk : ck = cacheKeyOf d.options key
    · subst hk
      rw [Map.Get_Set_self] at h
      exact Or.inl (Option.some.inj h).symm
    · rw [Map.Get_Set_other _ _ hk] at h
      exact Or.inr h
  · exact Or.inr h

theorem afterPush_cache_keeps (d : DataLoader W) (key : Value)
    (hmiss : shouldCache d.options = true →
      d.futureCache.Get (cacheKeyOf d.options key) = none)
    (hc : shouldCache d.options = true) (ck : Value) (f : Future)
    (h : d.futureCache.Get ck = some f) :
    ck ≠ cacheKeyOf d.options key ∧ (afterPush d key).futureCache.Get ck = some f := by
  have hk : ck ≠ cacheKeyOf d.options key := by
    intro hk
    rw [hk, hmiss hc] at h
    exact absurd h (by simp)
  refine ⟨hk, ?_⟩
  rw [afterPush_cache, if_pos hc, Map.Get_Set_other _ _ hk]
  exact h

/-- The state a missing `Load` ends in is at rest again, keeps the old cells, and
(with memoization enabled) keeps the old memo entries. -/
theorem atRest_after_miss (d : DataLoader W) (h : AtRest d) (v : Value) (e : Option GoError)
    (X : Map) (w : W) (cs : List (List Value))
    (hX : ∀ ck f, X.Get ck = some f →
      f = Future.chan d.cells.length ∨ d.futureCache.Get ck = some f) :
    AtRest { d with cells := d.cells ++ [Cell.mk v e 1], futureCache := X, world := w,
                    calls := cs } ∧
    (∀ (c : Nat) (cell : Cell), d.cells[c]? = some cell →
      (d.cells ++ [Cell.mk v e 1])[c]? = some cell) := by
  have hold : ∀ (c : Nat) (cell : Cell), d.cells[c]? = some cell →
      (d.cells ++ [Cell.mk v e 1])[c]? = some cell := by
    intro c cell hc
    have hlt : c < d.cells.length := by
      by_contra hge
      rw [List.getElem?_eq_none (by omega)] at hc
      exact absurd hc (by simp)
    rw [List.getElem?_append_left hlt]
    exact hc
  refine ⟨⟨h.mutex, h.queue, ?_, ?_⟩, hold⟩
  · intro c cell hc
    by_cases hlt : c < d.cells.length
    · change (d.cells ++ [Cell.mk v e 1])[c]? = some cell at hc
      rw [List.getElem?_append_left hlt] at hc
      exact h.closed c cell hc
    · change (d.cells ++ [Cell.mk v e 1])[c]? = some cell at hc
      rw [List.getElem?_append_right (by omega)] at hc
      cases hi : c - d.cells.length with
      | zero =>
        rw [hi] at hc
        simp only [List.getElem?_cons_zero, Option.some.injEq] at hc
        rw [← hc]
        exact Nat.one_pos
      | succ n =>
        rw [hi] at hc
        simp at hc
  · intro ck c hc
    show c < (d.cells ++ [Cell.mk v e 1]).length
    rw [List.length_append, List.length_singleton]
    rcases hX ck _ hc with h1 | h1
    · injection h1 with h1
      omega
    · have := h.cached ck c h1
      omega

theorem call_atRest (d : DataLoader W) (h : AtRest d) (ck : Value) (f : Future)
    (hg : d.futureCache.Get ck = some f) : ∃ res, f.call d.cells = some res := by
  cases f with
  | value v => exact ⟨_, rfl⟩
  | error e => exact ⟨_, rfl⟩
  | chan c =>
    have hlt := h.cached ck c hg
    have hpos := h.closed c _ (List.getElem?_eq_getElem hlt)
    exact ⟨(d.cells[c].resultValue, d.cells[c].resultError),
      by simp [Future.call, List.getElem?_eq_getElem hlt, hpos]⟩

/-- A `Load` issued on a loader at rest returns and leaves the loader at rest; the
cells made before keep their content and, with memoization enabled, so do the memo
entries made before. -/
theorem Load_atRest (d : DataLoader W) (key : Value) (h : AtRest d) :
    ∃ res, (Load d key).1 = some res ∧ AtRest (Load d key).2 ∧
      (Load d key).2.options = d.options ∧
      (∀ (c : Nat) (cell : Cell), d.cells[c]? = some cell →
        (Load d key).2.cells[c]? = some cell) ∧
      (shouldCache d.options = true → ∀ ck f, d.futureCache.Get ck = some f →
        (Load d key).2.futureCache.Get ck = some f) := by
  by_cases hk : key = Value.nil
  · subst hk
    have : Load d Value.nil = (some (Value.nil, some nilKeyError), d) := by simp [Load]
    rw [this]
    exact ⟨_, rfl, h, rfl, fun _ _ hc => hc, fun _ _ _ hg => hg⟩
  by_cases hhit : shouldCache d.options = true ∧
      ∃ f, d.futureCache.Get (cacheKeyOf d.options key) = some f
  · obtain ⟨hc, f, hg⟩ := hhit
    obtain ⟨res, hres⟩ := call_atRest d h _ f hg
    rw [Load_hit d key f hk h.mutex hc hg, hres]
    exact ⟨_, rfl, h, rfl, fun _ _ hc => hc, fun _ _ _ hg => hg⟩
  · have hmiss : shouldCache d.options = true →
        d.futureCache.Get (cacheKeyOf d.options key) = none := by
      intro hc
      cases hg : d.futureCache.Get (cacheKeyOf d.options key) with
      | none => rfl
      | some f => exact absurd ⟨hc, f, hg⟩ hhit
    have hXdel : ∀ ck f, ((afterPush d key).futureCache.Delete
        (cacheKeyOf d.options key)).Get ck = some f →
        f = Future.chan d.cells.length ∨ d.futureCache.Get ck = some f := by
      intro ck f hget
      apply afterPush_cache_sub d key ck f
      by_cases hck : ck = cacheKeyOf d.options key
      · rw [hck, Map.Get_Delete_self] at hget
        exact absurd hget (by simp)
      · rw [← hget]
        exact (Map.Get_Delete_other _ hck).symm
    have hkeepdel : shouldCache d.options = true → ∀ ck f, d.futureCache.Get ck = some f →
        ((afterPush d key).futureCache.Delete (cacheKeyOf d.options key)).Get ck = some f := by
      intro hc ck f hg
      obtain ⟨hne, hget⟩ := afterPush_cache_keeps d key hmiss hc ck f hg
      rw [Map.Get_Delete_other _ hne]
      exact hget
    cases he : (d.batchLoadFn d.world [key]).1.2 with
    | some e =>
      rw [Load_miss_err d key hk h.mutex h.queue hmiss e he]
      obtain ⟨h1, h2⟩ := atRest_after_miss d h Value.nil (some e)
        ((afterPush d key).futureCache.Delete (cacheKeyOf d.options key))
        (d.batchLoadFn d.world [key]).2 (d.calls ++ [[key]]) hXdel
      exact ⟨_, rfl, h1, rfl, h2, hkeepdel⟩
    | none =>
      by_cases hl : (d.batchLoadFn d.world [key]).1.1.length = 1
      · obtain ⟨v, hv⟩ := List.length_eq_one.mp hl
        have he2 : (d.batchLoadFn d.world [key]).1 = ([v], none) := Prod.ext hv he
        rw [Load_miss_ok d key hk h.mutex h.queue hmiss v he2]
        obtain ⟨h1, h2⟩ := atRest_after_miss d h (resultOf v).1 (resultOf v).2
          (afterPush d key).futureCache
          (d.batchLoadFn d.world [key]).2 (d.calls ++ [[key]]) (afterPush_cache_sub d key)
        exact ⟨_, rfl, h1, rfl, h2,
          fun hc ck f hg => (afterPush_cache_keeps d key hmiss hc ck f hg).2⟩
      · rw [Load_miss_shape d key hk h.mutex h.queue hmiss he hl]
        obtain ⟨h1, h2⟩ := atRest_after_miss d h Value.nil
          (some (shapeError [key] (d.batchLoadFn d.world [key]).1.1))
          ((afterPush d key).futureCache.Delete (cacheKeyOf d.options key))
          (d.batchLoadFn d.world [key]).2 (d.calls ++ [[key]]) hXdel
        exact ⟨_, rfl, h1, rfl, h2, hkeepdel⟩

/-! ## Memoized results survive later operations -/

theorem Op.run_keeps_entry (options : Option Options) (ck : Value) (f : Future) (c : Nat)
    (cell : Cell) (hc : shouldCache options = true) (d : DataLoader W) (op : Op)
    (hJ : AtRest d ∧ d.options = options ∧ d.futureCache.Get ck = some f ∧
      d.cells[c]? = some cell)
    (hop : Op.evicts options ck op = false) :
    AtRest (Op.run d op) ∧ (Op.run d op).options = options ∧
      (Op.run d op).futureCache.Get ck = some f ∧ (Op.run d op).cells[c]? = some cell := by
  obtain ⟨hrest, hopt, hget, hcell⟩ := hJ
  cases op with
  | load key =>
    obtain ⟨res, -, h1, h2, h3, h4⟩ := Load_atRest d key hrest
    exact ⟨h1, h2.trans hopt, h4 (hopt ▸ hc) ck f hget, h3 c cell hcell⟩
  | clear key =>
    have hne : ck ≠ cacheKeyOf d.options key := by
      intro heq
      rw [hopt] at heq
      simp [Op.evicts, heq] at hop
    exact ⟨atRest_Clear d key hrest, hopt,
      (Map.Get_Delete_other _ hne).trans hget, hcell⟩
  | clearAll => simp [Op.evicts] at hop
  | prime key value =>
    refine ⟨atRest_Prime d key value hrest, ?_, ?_, ?_⟩
    · cases hg : d.futureCache.Get (cacheKeyOf d.options key) with
      | some g => show (Prime d key value).options = options
                  rw [Prime_present d key value g hg]; exact hopt
      | none => show (Prime d key value).options = options
                rw [Prime_absent d key value hg]; exact hopt
    · cases hg : d.futureCache.Get (cacheKeyOf d.options key) with
      | some g => show (Prime d key value).futureCache.Get ck = some f
                  rw [Prime_present d key value g hg]; exact hget
      | none =>
        show (Prime d key value).futureCache.Get ck = some f
        rw [Prime_absent d key value hg]
        have hne : ck ≠ cacheKeyOf d.options key := by
          intro heq
          rw [heq, hg] at hget
          exact absurd hget (by simp)
        exact (Map.Get_Set_other _ _ hne).trans hget
    · cases hg : d.futureCache.Get (cacheKeyOf d.options key) with
      | some g => show (Prime d key value).cells[c]? = some cell
                  rw [Prime_present d key value g hg]; exact hcell
      | none => show (Prime d key value).cells[c]? = some cell
                rw [Prime_absent d key value hg]; exact hcell

theorem runOps_keeps_entry (options : Option Options) (ck : Value) (f : Future) (c : Nat)
    (cell : Cell) (hc : shouldCache options = true) (ops : List Op) (d : DataLoader W)
    (hJ : AtRest d ∧ d.options = options ∧ d.futureCache.Get ck = some f ∧
      d.cells[c]? = some cell)
    (hops : ∀ op ∈ ops, Op.evicts options ck op = false) :
    AtRest (runOps d ops) ∧ (runOps d ops).options = options ∧
      (runOps d ops).futureCache.Get ck = some f ∧ (runOps d ops).cells[c]? = some cell := by
  induction ops generalizing d with
  | nil => exact hJ
  | cons op ops ih =>
    show AtRest (runOps (Op.run d op) ops) ∧ (runOps (Op.run d op) ops).options = options ∧
      (runOps (Op.run d op) ops).futureCache.Get ck = some f ∧
      (runOps (Op.run d op) ops).cells[c]? = some cell
    apply ih
    · exact Op.run_keeps_entry options ck f c cell hc d op hJ
        (hops op (List.mem_cons_self _ _))
    · intro op2 h2
      exact hops op2 (List.mem_cons_of_mem _ h2)

/-- C5: with memoization enabled, on a loader at rest, when the batch function
answers the dispatch of a missing, non-nil key `k` with no error and, at the
position of `k`, the error value `e`, `Load(k)` returns `(nil, e)` and the memo
entry under the cache key of `k` is kept; after any later operations that
complete without a `ClearAll` or a `Clear` of that cache key, `Load(k)` returns
`(nil, e)` again and leaves the loader as it found it (no call of the batch
function). -/
theorem per_key_error_is_memoized (d : DataLoader W) (key : Value) (e : GoError)
    (hk : key ≠ Value.nil) (h : AtRest d) (hc : shouldCache d.options = true)
    (hmiss : d.futureCache.Get (cacheKeyOf d.options key) = none)
    (hfn : (d.batchLoadFn d.world [key]).1 = ([Value.error e], none)) :
    (Load d key).1 = some (Value.nil, some e) ∧
    (Load d key).2.futureCache.Get (cacheKeyOf d.options key) =
      some (Future.chan d.cells.length) ∧
    ∀ ops : List Op,
      (∀ op ∈ ops, Op.evicts d.options (cacheKeyOf d.options key) op = false) →
      Load (runOps (Load d key).2 ops) key =
        (some (Value.nil, some e), runOps (Load d key).2 ops) := by
  have hL := Load_miss_ok d key hk h.mutex h.queue (fun _ => hmiss) (Value.error e) hfn
  have hget : (Load d key).2.futureCache.Get (cacheKeyOf d.options key) =
      some (Future.chan d.cells.length) := by
    rw [hL]
    show (afterPush d key).futureCache.Get (cacheKeyOf d.options key) = _
    rw [afterPush_cache, if_pos hc]
    exact Map.Get_Set_self _ _ _
  have hcell : (Load d key).2.cells[d.cells.length]? =
      some (Cell.mk Value.nil (some e) 1) := by
    rw [hL]
    show (d.cells ++ [Cell.mk Value.nil (some e) 1])[d.cells.length]? = _
    simp
  obtain ⟨res, -, hrest, hopt, -, -⟩ := Load_atRest d key h
  refine ⟨by rw [hL]; rfl, hget, ?_⟩
  intro ops hops
  obtain ⟨j1, j2, j3, j4⟩ := runOps_keeps_entry d.options (cacheKeyOf d.options key)
    (Future.chan d.cells.length) d.cells.length (Cell.mk Value.nil (some e) 1) hc ops
    (Load d key).2 ⟨hrest, hopt, hget, hcell⟩ hops
  have hhit := Load_hit (runOps (Load d key).2 ops) key (Future.chan d.cells.length) hk
    j1.mutex (j2 ▸ hc) (j2 ▸ j3)
  rw [hhit]
  simp [Future.call, j4]

/-- Witness for C5: the batch function rejects key 2; `Load(2)` returns the error,
and again after a `Load(1)` and a `Prime(3, 7)`, with the one batch call for key 2
and the one for key 1 as the only calls. -/
theorem per_key_error_is_memoized_witness :
    Load (runOps (Load (NewDataLoader rejectTwo none ()) (Value.int 2)).2
        [Op.load (Value.int 1), Op.prime (Value.int 3) (Value.int 7)]) (Value.int 2) =
      (some (Value.nil, some ⟨"no such row"⟩),
        runOps (Load (NewDataLoader rejectTwo none ()) (Value.int 2)).2
          [Op.load (Value.int 1), Op.prime (Value.int 3) (Value.int 7)]) :=
  (per_key_error_is_memoized (NewDataLoader rejectTwo none ()) (Value.int 2) ⟨"no such row"⟩
    (by simp) (atRest_new _ _ _) rfl rfl rfl).2.2
    [Op.load (Value.int 1), Op.prime (Value.int 3) (Value.int 7)]
    (by simp [Op.evicts])

/-! ## The invariant of concurrent runs -/

theorem dispatchEnd_frame (d : DataLoader W) (items : List LoaderQueueItem) :
    (dispatchEnd d items).mutex = d.mutex ∧ (dispatchEnd d items).queue = d.queue ∧
    (dispatchEnd d items).calls = d.calls ++ [items.map fun item => item.Key] := by
  unfold dispatchEnd
  simp only
  split
  · obtain ⟨-, h2, h3, h4, -, -, -⟩ := failedDispatch_frame
      { d with
        world := (d.batchLoadFn d.world (items.map fun item => item.Key)).2
        calls := d.calls ++ [items.map fun item => item.Key] } items ‹GoError›
    exact ⟨h4, h2, h3⟩
  · split
    · obtain ⟨-, h2, h3, h4, -, -, -⟩ := failedDispatch_frame
        { d with
          world := (d.batchLoadFn d.world (items.map fun item => item.Key)).2
          calls := d.calls ++ [items.map fun item => item.Key] } items
        (shapeError (items.map fun item => item.Key)
          (d.batchLoadFn d.world (items.map fun item => item.Key)).1.1)
      exact ⟨h4, h2, h3⟩
    · exact ⟨rfl, rfl, rfl⟩

theorem Others.of_set (ts : List Thread) (act : List Nat) (i : Nat) (t : Thread)
    (ho : Others ts act) (ht : t.passive = true ∨ i ∈ act) : Others (ts.set i t) act := by
  intro x tx hx hact
  by_cases hix : i = x
  · subst hix
    rcases ht with ht | ht
    · rw [List.getElem?_set] at hx
      simp only [if_true] at hx
      split at hx
      · injection hx with hx; rw [← hx]; exact ht
      · exact absurd hx (by simp)
    · exact absurd ht hact
  · rw [List.getElem?_set_ne hix] at hx
    exact ho x tx hx hact

theorem Others.mono (ts : List Thread) (act act2 : List Nat) (ho : Others ts act)
    (h : ∀ i, i ∈ act → i ∈ act2) : Others ts act2 :=
  fun x tx hx hact => ho x tx hx (fun hin => hact (h x hin))

theorem Others.active (ts : List Thread) (act : List Nat) (ho : Others ts act) (i : Nat)
    (t : Thread) (hi : ts[i]? = some t) (hp : t.passive = false) : i ∈ act := by
  by_contra hn
  rw [ho i t hi hn] at hp
  exact absurd hp (by simp)

theorem get_set_same (ts : List Thread) (i : Nat) (t t2 : Thread) (hi : ts[i]? = some t) :
    (ts.set i t2)[i]? = some t2 := by
  have hlt : i < ts.length := by
    by_contra hge
    rw [List.getElem?_eq_none (by omega)] at hi
    exact absurd hi (by simp)
  exact List.getElem?_set_self hlt

/-- A step that replaces a passive goroutine by a passive one and leaves mutex,
queue and cells alone keeps the phase. -/
theorem Phase.passive_step (s : System W) (l : DataLoader W) (i : Nat) (t t2 : Thread)
    (hp : Phase s) (hi : s.threads[i]? = some t) (ht : t.passive = true)
    (ht2 : t2.passive = true) (hm : l.mutex = s.loader.mutex) (hq : l.queue = s.loader.queue)
    (hc : l.cells = s.loader.cells) : Phase ⟨l, s.threads.set i t2⟩ := by
  have hne : ∀ (x : Nat) (tx : Thread), s.threads[x]? = some tx → tx.passive = false →
      (s.threads.set i t2)[x]? = some tx := by
    intro x tx hx hpx
    have : i ≠ x := by
      intro heq
      subst heq
      rw [hi] at hx
      injection hx with hx
      rw [hx, hpx] at ht
      exact absurd ht (by simp)
    rw [List.getElem?_set_ne this]
    exact hx
  cases hp with
  | idle h1 h2 ho =>
    exact Phase.idle (hm.trans h1) (by rw [hq]; exact h2) (Others.of_set _ _ i t2 ho (Or.inl ht2))
  | waiting h j k c h1 h2 hh hj hb ho =>
    exact Phase.waiting h j k c (hm.trans h1) (by rw [hq]; exact h2) (hne h _ hh rfl)
      (hne j _ hj rfl) (by rw [hc]; exact hb) (Others.of_set _ _ i t2 ho (Or.inl ht2))
  | fetching h j k c h1 h2 hh hj hb ho =>
    exact Phase.fetching h j k c (hm.trans h1) (by rw [hq]; exact h2) (hne h _ hh rfl)
      (hne j _ hj rfl) (by rw [hc]; exact hb) (Others.of_set _ _ i t2 ho (Or.inl ht2))
  | fetchingOwn h k c h1 h2 hh ho =>
    exact Phase.fetchingOwn h k c (hm.trans h1) (by rw [hq]; exact h2) (hne h _ hh rfl)
      (Others.of_set _ _ i t2 ho (Or.inl ht2))
  | reading h f h1 h2 hh ho =>
    exact Phase.reading h f (hm.trans h1) (by rw [hq]; exact h2) (hne h _ hh rfl)
      (Others.of_set _ _ i t2 ho (Or.inl ht2))

theorem loadSection_hit (d : DataLoader W) (key : Value) (f : Future)
    (hc : shouldCache d.options = true)
    (h : d.futureCache.Get (cacheKeyOf d.options key) = some f) :
    loadSection d key = (f, Dispatch.notScheduled, d) := by
  simp [loadSection, hc, h]

theorem loadSection_miss (d : DataLoader W) (key : Value) (hq : d.queue.items = [])
    (h : shouldCache d.options = true → d.futureCache.Get (cacheKeyOf d.options key) = none) :
    loadSection d key = (Future.chan d.cells.length,
      if shouldBatch d.options then Dispatch.deferred else Dispatch.immediate,
      afterSection d key) := by
  cases d with
  | mk mutex fn options cache queue cells world calls =>
    cases queue with
    | mk items =>
      simp only at hq h
      subst hq
      cases hc : shouldCache options
      · cases hb : shouldBatch options <;>
          simp [loadSection, hc, hb, afterSection, LoaderQueue.Push, LoaderQueue.Size]
      · have h2 := h hc
        cases hb : shouldBatch options <;>
          simp [loadSection, hc, hb, h2, afterSection, LoaderQueue.Push, LoaderQueue.Size]

theorem stepLoad_inv (s s2 : System W) (i : Nat) (key : Value) (hinv : Inv s)
    (hi : s.threads[i]? = some (Thread.called (Op.load key)))
    (hstep : stepLoad s i key = some s2) : Inv s2 := by
  obtain ⟨hp, hcalls⟩ := hinv
  unfold stepLoad at hstep
  by_cases hk : key = Value.nil
  · rw [if_pos hk] at hstep
    injection hstep with hstep
    rw [← hstep]
    exact ⟨Phase.passive_step s s.loader i _ _ hp hi rfl rfl rfl rfl rfl, hcalls⟩
  rw [if_neg hk] at hstep
  cases hm : s.loader.mutex with
  | true => rw [hm] at hstep; simp at hstep
  | false =>
    rw [hm] at hstep
    simp only [Bool.false_eq_true, if_false] at hstep
    have hidle : s.loader.queue.items = [] ∧ Others s.threads [] := by
      cases hp with
      | idle _ h2 ho => exact ⟨h2, ho⟩
      | waiting h j k c h1 => rw [hm] at h1; exact absurd h1 (by simp)
      | fetching h j k c h1 => rw [hm] at h1; exact absurd h1 (by simp)
      | fetchingOwn h k c h1 => rw [hm] at h1; exact absurd h1 (by simp)
      | reading h f h1 => rw [hm] at h1; exact absurd h1 (by simp)
    obtain ⟨hq, ho⟩ := hidle
    have hlt : i < s.threads.length := by
      by_contra hge
      rw [List.getElem?_eq_none (by omega)] at hi
      exact absurd hi (by simp)
    by_cases hhit : shouldCache s.loader.options = true ∧
        ∃ f, s.loader.futureCache.Get (cacheKeyOf s.loader.options key) = some f
    · obtain ⟨hc, f, hg⟩ := hhit
      rw [loadSection_hit { s.loader with mutex := true } key f hc hg] at hstep
      injection hstep with hstep
      rw [← hstep]
      refine ⟨Phase.reading i f rfl hq (get_set_same _ _ _ _ hi) ?_, hcalls⟩
      exact Others.of_set _ _ i _ (Others.mono _ _ _ ho (fun _ h => absurd h (by simp)))
        (Or.inr (by simp))
    · have hmiss : shouldCache s.loader.options = true →
          s.loader.futureCache.Get (cacheKeyOf s.loader.options key) = none := by
        intro hc
        cases hg : s.loader.futureCache.Get (cacheKeyOf s.loader.options key) with
        | none => rfl
        | some f => exact absurd ⟨hc, f, hg⟩ hhit
      rw [loadSection_miss { s.loader with mutex := true } key hq hmiss] at hstep
      cases hb : shouldBatch s.loader.options with
      | true =>
        simp only [hb, if_true] at hstep
        injection hstep with hstep
        rw [← hstep]
        refine ⟨Phase.waiting i s.threads.length key s.loader.cells.length rfl rfl ?_ ?_ ?_ ?_,
          hcalls⟩
        · show (s.threads.set i _ ++ [Thread.jobWaiting])[i]? = _
          rw [List.getElem?_append_left (by rw [List.length_set]; exact hlt)]
          exact get_set_same _ _ _ _ hi
        · show (s.threads.set i _ ++ [Thread.jobWaiting])[s.threads.length]? = _
          rw [List.getElem?_append_right (by rw [List.length_set])]
          simp
        · show (Future.chan s.loader.cells.length).call
            (s.loader.cells ++ [Cell.mk Value.nil none 0]) = none
          simp [Future.call]
        · intro x tx hx hact
          simp only [List.mem_cons, List.mem_singleton, List.not_mem_nil, or_false,
            not_or] at hact
          have hxlt : x < s.threads.length := by
            by_contra hge
            have hgt : s.threads.length < x := by omega
            change (s.threads.set i _ ++ [Thread.jobWaiting])[x]? = some tx at hx
            rw [List.getElem?_eq_none (by simp; omega)] at hx
            exact absurd hx (by simp)
          change (s.threads.set i _ ++ [Thread.jobWaiting])[x]? = some tx at hx
          rw [List.getElem?_append_left (by rw [List.length_set]; exact hxlt),
            List.getElem?_set_ne (fun h => hact.1 h.symm)] at hx
          exact ho x tx hx (by simp)
      | false =>
        simp only [hb, Bool.false_eq_true, if_false] at hstep
        injection hstep with hstep
        rw [← hstep]
        refine ⟨Phase.fetchingOwn i key s.loader.cells.length rfl rfl
          (get_set_same _ _ _ _ hi) ?_, hcalls⟩
        exact Others.of_set _ _ i _ (Others.mono _ _ _ ho (fun _ h => absurd h (by simp)))
          (Or.inr (by simp))

theorem step_inv (s s2 : System W) (i : Nat) (hinv : Inv s) (hstep : step s i = some s2) :
    Inv s2 := by
  unfold step at hstep
  cases hi : s.threads[i]? with
  | none => rw [hi] at hstep; exact absurd hstep (by simp)
  | some t =>
    rw [hi] at hstep
    cases t with
    | called op =>
      cases op with
      | load key => exact stepLoad_inv s s2 i key hinv hi hstep
      | clear key =>
        injection hstep with hstep
        rw [← hstep]
        exact ⟨Phase.passive_step s _ i _ _ hinv.1 hi rfl rfl rfl rfl rfl, hinv.2⟩
      | clearAll =>
        injection hstep with hstep
        rw [← hstep]
        exact ⟨Phase.passive_step s _ i _ _ hinv.1 hi rfl rfl rfl rfl rfl, hinv.2⟩
      | prime key value =>
        injection hstep with hstep
        rw [← hstep]
        have hP : (Prime s.loader key value).mutex = s.loader.mutex ∧
            (Prime s.loader key value).queue = s.loader.queue ∧
            (Prime s.loader key value).cells = s.loader.cells ∧
            (Prime s.loader key value).calls = s.loader.calls := by
          cases hg : s.loader.futureCache.Get (cacheKeyOf s.loader.options key) with
          | some g => rw [Prime_present _ key value g hg]; exact ⟨rfl, rfl, rfl, rfl⟩
          | none => rw [Prime_absent _ key value hg]; exact ⟨rfl, rfl, rfl, rfl⟩
        refine ⟨Phase.passive_step s _ i _ _ hinv.1 hi rfl rfl hP.1 hP.2.1 hP.2.2.1, ?_⟩
        show ∀ ks ∈ (Prime s.loader key value).calls, ks.length = 1
        rw [hP.2.2.2]
        exact hinv.2
    | dispatching future items =>
      simp only [Option.some.injEq] at hstep
      rw [← hstep]
      obtain ⟨hp, hcalls⟩ := hinv
      obtain ⟨f1, f2, f3⟩ := dispatchEnd_frame s.loader items
      have hown : ∃ k c, future = Future.chan c ∧ items = [⟨k, c⟩] ∧
          s.loader.mutex = true ∧ s.loader.queue.items = [] ∧ Others s.threads [i] := by
        cases hp with
        | idle _ _ ho => exact absurd (Others.active _ _ ho i _ hi rfl) (by simp)
        | waiting h j k c _ _ hh hj _ ho =>
          have := Others.active _ _ ho i _ hi rfl
          simp only [List.mem_cons, List.mem_singleton, List.not_mem_nil, or_false] at this
          rcases this with h1 | h1 <;> subst h1
          · rw [hi] at hh; simp at hh
          · rw [hi] at hj; simp at hj
        | fetching h j k c _ _ hh hj _ ho =>
          have := Others.active _ _ ho i _ hi rfl
          simp only [List.mem_cons, List.mem_singleton, List.not_mem_nil, or_false] at this
          rcases this with h1 | h1 <;> subst h1
          · rw [hi] at hh; simp at hh
          · rw [hi] at hj; simp at hj
        | fetchingOwn h k c h1 h2 hh ho =>
          have := Others.active _ _ ho i _ hi rfl
          simp only [List.mem_singleton] at this
          subst this
          rw [hi] at hh
          simp only [Option.some.injEq, Thread.dispatching.injEq] at hh
          exact ⟨k, c, hh.1, hh.2, h1, h2, ho⟩
        | reading h f _ _ hh ho =>
          have := Others.active _ _ ho i _ hi rfl
          simp only [List.mem_singleton] at this
          subst this
          rw [hi] at hh; simp at hh
      obtain ⟨k, c, hf, hit, h1, h2, ho⟩ := hown
      refine ⟨Phase.reading i future (f1.trans h1) (by rw [f2]; exact h2)
        (get_set_same _ _ _ _ hi) (Others.of_set _ _ i _ ho (Or.inr (by simp))), ?_⟩
      show ∀ ks ∈ (dispatchEnd s.loader items).calls, ks.length = 1
      rw [f3, hit]
      intro ks hks
      rcases List.mem_append.mp hks with h | h
      · exact hcalls ks h
      · simp only [List.map_cons, List.map_nil, List.mem_singleton] at h
        rw [h]; rfl
    | reading future =>
      cases hcall : future.call s.loader.cells with
      | none => simp [hcall] at hstep
      | some res =>
        simp only [hcall, Option.some.injEq] at hstep
        rw [← hstep]
        obtain ⟨hp, hcalls⟩ := hinv
        refine ⟨?_, hcalls⟩
        cases hp with
        | idle _ _ ho => exact absurd (Others.active _ _ ho i _ hi rfl) (by simp)
        | waiting h j k c _ _ hh hj hb ho =>
          have := Others.active _ _ ho i _ hi rfl
          simp only [List.mem_cons, List.mem_singleton, List.not_mem_nil, or_false] at this
          rcases this with h1 | h1 <;> subst h1
          · rw [hi] at hh
            simp only [Option.some.injEq, Thread.reading.injEq] at hh
            rw [hh, hb] at hcall
            exact absurd hcall (by simp)
          · rw [hi] at hj; simp at hj
        | fetching h j k c _ _ hh hj hb ho =>
          have := Others.active _ _ ho i _ hi rfl
          simp only [List.mem_cons, List.mem_singleton, List.not_mem_nil, or_false] at this
          rcases this with h1 | h1 <;> subst h1
          · rw [hi] at hh
            simp only [Option.some.injEq, Thread.reading.injEq] at hh
            rw [hh, hb] at hcall
            exact absurd hcall (by simp)
          · rw [hi] at hj; simp at hj
        | fetchingOwn h k c _ _ hh ho =>
          have := Others.active _ _ ho i _ hi rfl
          simp only [List.mem_singleton] at this
          subst this
          rw [hi] at hh; simp at hh
        | reading h f _ h2 hh ho =>
          have := Others.active _ _ ho i _ hi rfl
          simp only [List.mem_singleton] at this
          subst this
          refine Phase.idle rfl h2 ?_
          intro x tx hx _
          by_cases hix : i = x
          · subst hix
            rw [get_set_same _ _ _ _ hi] at hx
            injection hx with hx
            rw [← hx]; rfl
          · rw [List.getElem?_set_ne hix] at hx
            exact ho x tx hx (by simp; exact fun h => hix h.symm)
    | returned res => exact absurd hstep (by simp)
    | jobWaiting =>
      simp only [Option.some.injEq] at hstep
      rw [← hstep]
      obtain ⟨hp, hcalls⟩ := hinv
      refine ⟨?_, hcalls⟩
      cases hp with
      | idle _ _ ho => exact absurd (Others.active _ _ ho i _ hi rfl) (by simp)
      | waiting h j k c h1 h2 hh hj hb ho =>
        have := Others.active _ _ ho i _ hi rfl
        simp only [List.mem_cons, List.mem_singleton, List.not_mem_nil, or_false] at this
        rcases this with h3 | h3
        · subst h3; rw [hi] at hh; simp at hh
        · subst h3
          have hne : i ≠ h := by
            intro heq; subst heq; rw [hi] at hh; simp at hh
          refine Phase.fetching h i k c h1 rfl ?_ ?_ hb
            (Others.of_set _ _ i _ ho (Or.inr (by simp)))
          · show (s.threads.set i _)[h]? = _
            rw [List.getElem?_set_ne hne]; exact hh
          · show (s.threads.set i _)[i]? = _
            rw [get_set_same _ _ _ _ hi]
            simp [dispatchBegin, LoaderQueue.DumpItems, h2]
      | fetching h j k c _ _ hh hj _ ho =>
        have := Others.active _ _ ho i _ hi rfl
        simp only [List.mem_cons, List.mem_singleton, List.not_mem_nil, or_false] at this
        rcases this with h1 | h1 <;> subst h1
        · rw [hi] at hh; simp at hh
        · rw [hi] at hj; simp at hj
      | fetchingOwn h k c _ _ hh ho =>
        have := Others.active _ _ ho i _ hi rfl
        simp only [List.mem_singleton] at this
        subst this
        rw [hi] at hh; simp at hh
      | reading h f _ _ hh ho =>
        have := Others.active _ _ ho i _ hi rfl
        simp only [List.mem_singleton] at this
        subst this
        rw [hi] at hh; simp at hh
    | jobDispatching items =>
      simp only [Option.some.injEq] at hstep
      rw [← hstep]
      obtain ⟨hp, hcalls⟩ := hinv
      obtain ⟨f1, f2, f3⟩ := dispatchEnd_frame s.loader items
      have hjob : ∃ h k c, items = [⟨k, c⟩] ∧ h ≠ i ∧
          s.threads[h]? = some (Thread.reading (Future.chan c)) ∧
          s.loader.mutex = true ∧ s.loader.queue.items = [] ∧ Others s.threads [h, i] := by
        cases hp with
        | idle _ _ ho => exact absurd (Others.active _ _ ho i _ hi rfl) (by simp)
        | waiting h j k c _ _ hh hj _ ho =>
          have := Others.active _ _ ho i _ hi rfl
          simp only [List.mem_cons, List.mem_singleton, List.not_mem_nil, or_false] at this
          rcases this with h1 | h1 <;> subst h1
          · rw [hi] at hh; simp at hh
          · rw [hi] at hj; simp at hj
        | fetching h j k c h1 h2 hh hj _ ho =>
          have := Others.active _ _ ho i _ hi rfl
          simp only [List.mem_cons, List.mem_singleton, List.not_mem_nil, or_false] at this
          rcases this with h3 | h3
          · subst h3; rw [hi] at hh; simp at hh
          · subst h3
            rw [hi] at hj
            simp only [Option.some.injEq, Thread.jobDispatching.injEq] at hj
            refine ⟨h, k, c, hj, ?_, hh, h1, h2, ho⟩
            intro heq; subst heq; rw [hi] at hh; simp at hh
        | fetchingOwn h k c _ _ hh ho =>
          have := Others.active _ _ ho i _ hi rfl
          simp only [List.mem_singleton] at this
          subst this
          rw [hi] at hh; simp at hh
        | reading h f _ _ hh ho =>
          have := Others.active _ _ ho i _ hi rfl
          simp only [List.mem_singleton] at this
          subst this
          rw [hi] at hh; simp at hh
      obtain ⟨h, k, c, hit, hne, hh, h1, h2, ho⟩ := hjob
      refine ⟨Phase.reading h (Future.chan c) (f1.trans h1) (by rw [f2]; exact h2) ?_ ?_, ?_⟩
      · show (s.threads.set i _)[h]? = _
        rw [List.getElem?_set_ne (fun heq => hne heq.symm)]; exact hh
      · intro x tx hx hact
        by_cases hix : i = x
        · subst hix
          rw [get_set_same _ _ _ _ hi] at hx
          injection hx with hx
          rw [← hx]; rfl
        · rw [List.getElem?_set_ne hix] at hx
          apply ho x tx hx
          simp only [List.mem_cons, List.mem_singleton, List.not_mem_nil, or_false] at hact ⊢
          exact fun h3 => h3.elim hact (fun h4 => hix h4.symm)
      · show ∀ ks ∈ (dispatchEnd s.loader items).calls, ks.length = 1
        rw [f3, hit]
        intro ks hks
        rcases List.mem_append.mp hks with h | h
        · exact hcalls ks h
        · simp only [List.map_cons, List.map_nil, List.mem_singleton] at h
          rw [h]; rfl
    | jobDone => exact absurd hstep (by simp)

theorem run_inv (s : System W) (schedule : List Nat) (hinv : Inv s) : Inv (run s schedule) := by
  induction schedule generalizing s with
  | nil => exact hinv
  | cons i rest ih =>
    show Inv (run ((step s i).getD s) rest)
    apply ih
    cases hstep : step s i with
    | none => exact hinv
    | some s2 => exact step_inv s s2 i hinv hstep

theorem start_inv (fn : BatchLoadFn W) (options : Option Options) (w : W) (ops : List Op) :
    Inv (start fn options w ops) := by
  refine ⟨Phase.idle rfl rfl ?_, fun ks h => by simp [start, NewDataLoader] at h⟩
  intro x tx hx _
  simp only [start, List.getElem?_map] at hx
  cases hop : ops[x]? with
  | none => rw [hop] at hx; simp at hx
  | some op => rw [hop] at hx; simp at hx; rw [← hx]; rfl

/-! ## Two concurrent loads -/

/-- C2 (defect of the code): two `Load` calls on one loader never share a batch.
For every batch function, configuration, pair of keys and schedule, the key list
`[k1, k2]` is never passed to the batch function. On the doubling loader with
batching on, once `Load(3)` has run its locked section the call `Load(4)` is
blocked in `Lock` (it cannot push before the tick), and the complete run calls the
batch function twice, with `[3]` and then `[4]`. -/
theorem Load_pair_is_never_batched (fn : BatchLoadFn W) (options : Option Options) (w : W)
    (k1 k2 : Value) (schedule : List Nat) :
    [k1, k2] ∉ (run (start fn options w [Op.load k1, Op.load k2]) schedule).loader.calls ∧
    (step (run (start doubleKeys none () [Op.load (Value.int 3), Op.load (Value.int 4)]) [0])
      1).isNone = true ∧
    (run (start doubleKeys none () [Op.load (Value.int 3), Op.load (Value.int 4)])
      [0, 1, 2, 1, 2, 1, 0, 1, 3, 3, 1]).loader.calls = [[Value.int 3], [Value.int 4]] ∧
    (run (start doubleKeys none () [Op.load (Value.int 3), Op.load (Value.int 4)])
      [0, 1, 2, 1, 2, 1, 0, 1, 3, 3, 1]).threads =
        [Thread.returned (some (Value.int 6, none)), Thread.returned (some (Value.int 8, none)),
          Thread.jobDone, Thread.jobDone] := by
  refine ⟨?_, by rfl, by rfl, by rfl⟩
  intro hmem
  have h := (run_inv _ schedule (start_inv fn options w [Op.load k1, Op.load k2])).2 _ hmem
  simp at h

/-- C3 (defect of the code): with memoization on and a batch function whose first
call fails as a whole, two concurrent `Load(1)` calls (the second is blocked in
`Lock` once the first has run its locked section, so it is issued before the
dispatch of the first) make the batch function receive key 1 twice, and the two
calls return different pairs: `(nil, boom)` and `(1, nil)`. -/
theorem Load_same_key_twice_refetches :
    shouldCache (start failFirst none 0 [Op.load (Value.int 1), Op.load (Value.int 1)]).loader.options
      = true ∧
    (step (run (start failFirst none 0 [Op.load (Value.int 1), Op.load (Value.int 1)]) [0])
      1).isNone = true ∧
    (run (start failFirst none 0 [Op.load (Value.int 1), Op.load (Value.int 1)])
      [0, 1, 2, 1, 2, 1, 0, 1, 3, 3, 1]).loader.calls = [[Value.int 1], [Value.int 1]] ∧
    (run (start failFirst none 0 [Op.load (Value.int 1), Op.load (Value.int 1)])
      [0, 1, 2, 1, 2, 1, 0, 1, 3, 3, 1]).threads =
        [Thread.returned (some (Value.nil, some ⟨"boom"⟩)),
          Thread.returned (some (Value.int 1, none)), Thread.jobDone, Thread.jobDone] := by
  refine ⟨by rfl, by rfl, by rfl, by rfl⟩

/-! ## A lone caller -/

/-- The function `Load` is the run of one caller on the loader: under the schedule
that lets the caller and the dispatch goroutine it may start take their steps, the
loader ends as `Load` says, and the caller has returned `r` exactly when `Load`
returns `r`. -/
theorem run_lone_caller (d : DataLoader W) (key : Value) :
    (run ⟨d, [Thread.called (Op.load key)]⟩ [0, 1, 1, 0, 0]).loader = (Load d key).2 ∧
    ∀ r, (run ⟨d, [Thread.called (Op.load key)]⟩ [0, 1, 1, 0, 0]).threads[0]? =
        some (Thread.returned (some r)) ↔ (Load d key).1 = some r := by
  by_cases hk : key = Value.nil
  · subst hk
    simp [run, step, stepLoad, Load]
  cases hm : d.mutex with
  | true => simp [run, step, stepLoad, Load, hk, hm]
  | false =>
    rcases hr : loadSection { d with mutex := true } key with ⟨f, sched, d1⟩
    cases sched with
    | notScheduled =>
      cases hc : f.call d1.cells with
      | none => simp [run, step, stepLoad, Load, hk, hm, hr, hc]
      | some res =>
        simp [run, step, stepLoad, Load, hk, hm, hr, hc]
    | deferred =>
      cases hc : f.call (dispatchQueue d1).cells with
      | none =>
        simp [run, step, stepLoad, Load, hk, hm, hr, dispatchQueue] at hc ⊢
        simp [hc]
      | some res =>
        simp [run, step, stepLoad, Load, hk, hm, hr, dispatchQueue] at hc ⊢
        simp [hc]
    | immediate =>
      cases hc : f.call (dispatchQueue d1).cells with
      | none =>
        simp [run, step, stepLoad, Load, hk, hm, hr, dispatchQueue] at hc ⊢
        simp [hc]
      | some res =>
        simp [run, step, stepLoad, Load, hk, hm, hr, dispatchQueue] at hc ⊢
        simp [hc]

/-! ## Every reachable state -/

theorem Phase.queue_le_one (s : System W) (hp : Phase s) : s.loader.queue.items.length ≤ 1 := by
  cases hp with
  | idle _ hq _ => rw [hq]; exact Nat.zero_le 1
  | waiting h j k c _ hq => rw [hq]; exact Nat.le_refl 1
  | fetching h j k c _ hq => rw [hq]; exact Nat.zero_le 1
  | fetchingOwn h k c _ hq => rw [hq]; exact Nat.zero_le 1
  | reading h f _ hq => rw [hq]; exact Nat.zero_le 1

theorem Phase.mutex_of_active (s : System W) (hp : Phase s) (i : Nat) (t : Thread)
    (hi : s.threads[i]? = some t) (ht : t.passive = false) : s.loader.mutex = true := by
  cases hp with
  | idle _ _ ho => exact absurd (Others.active _ _ ho i t hi ht) (by simp)
  | waiting h j k c hm => exact hm
  | fetching h j k c hm => exact hm
  | fetchingOwn h k c hm => exact hm
  | reading h f hm => exact hm

theorem step_load_blocked (s : System W) (i : Nat) (key : Value)
    (hi : s.threads[i]? = some (Thread.called (Op.load key))) (hk : key ≠ Value.nil)
    (hm : s.loader.mutex = true) : step s i = none := by
  simp [step, hi, stepLoad, hk, hm]

/-- C20: in every state reached from a new loader by callers of `Load`, `Clear`,
`ClearAll` and `Prime` (any number of them, under any schedule; the goroutines of
a `LoadMany` are callers of `Load`), the pending queue holds at most one item and
every key list the batch function has received has length exactly 1. -/
theorem queue_and_batches_have_one_key (fn : BatchLoadFn W) (options : Option Options) (w : W)
    (ops : List Op) (schedule : List Nat) :
    (run (start fn options w ops) schedule).loader.queue.items.length ≤ 1 ∧
    ∀ ks ∈ (run (start fn options w ops) schedule).loader.calls, ks.length = 1 := by
  have h := run_inv _ schedule (start_inv fn options w ops)
  exact ⟨Phase.queue_le_one _ h.1, h.2⟩

/-- C15 (defect of the code): `Load` does not release `d.mutex` before it reads
its future, and the batch function runs while the mutex is held. In every state
reached from a new loader, whenever some goroutine is inside `dispatchQueue`
calling the batch function, or a `Load` is waiting at `return future()`, the mutex
is locked and no caller of `Load` with a non-nil key can take a step (it cannot
push into the queue). On the doubling loader such a state is reached after the
first two steps, with the batch function running and `Load(4)` blocked. -/
theorem Load_blocked_while_batch_runs (fn : BatchLoadFn W) (options : Option Options) (w : W)
    (ops : List Op) (schedule : List Nat) :
    (∀ (j : Nat) (t : Thread),
      (run (start fn options w ops) schedule).threads[j]? = some t → t.passive = false →
      (run (start fn options w ops) schedule).loader.mutex = true ∧
      ∀ (i : Nat) (key : Value),
        (run (start fn options w ops) schedule).threads[i]? =
          some (Thread.called (Op.load key)) → key ≠ Value.nil →
        step (run (start fn options w ops) schedule) i = none) ∧
    (run (start doubleKeys none () [Op.load (Value.int 3), Op.load (Value.int 4)])
      [0, 2]).threads =
        [Thread.reading (Future.chan 0), Thread.called (Op.load (Value.int 4)),
          Thread.jobDispatching [⟨Value.int 3, 0⟩]] ∧
    (step (run (start doubleKeys none () [Op.load (Value.int 3), Op.load (Value.int 4)])
      [0, 2]) 1).isNone = true := by
  refine ⟨?_, by rfl, by rfl⟩
  intro j t hj ht
  have h := run_inv _ schedule (start_inv fn options w ops)
  have hm := Phase.mutex_of_active _ h.1 j t hj ht
  exact ⟨hm, fun i key hi hk => step_load_blocked _ i key hi hk hm⟩

/-! ## Batching disabled -/

/-- C12: with batching disabled, on a loader at rest, a `Load(k)` of a non-nil key
that misses the memo store returns after exactly one more invocation of the batch
function, with the key list `[k]`, and the queue is empty when it returns. The
invocation is made by the caller itself, with no dispatch goroutine and no timer:
in the interleaving model the first step of the caller starts no goroutine and
leaves it inside its own `dispatchQueue` with the one drained item, and its next
step makes the call. -/
theorem Load_without_batching (d : DataLoader W) (key : Value) (hk : key ≠ Value.nil)
    (hm : d.mutex = false) (hq : d.queue.items = [])
    (hb : shouldBatch d.options = false)
    (hmiss : shouldCache d.options = true →
      d.futureCache.Get (cacheKeyOf d.options key) = none) :
    (∃ res, (Load d key).1 = some res ∧ (Load d key).2.calls = d.calls ++ [[key]] ∧
      (Load d key).2.queue.items = []) ∧
    ∀ (ts : List Thread) (i : Nat), ts[i]? = some (Thread.called (Op.load key)) →
      ∃ s1 s2, step ⟨d, ts⟩ i = some s1 ∧
        s1.threads = ts.set i
          (Thread.dispatching (Future.chan d.cells.length) [⟨key, d.cells.length⟩]) ∧
        s1.loader.calls = d.calls ∧ s1.loader.queue.items = [] ∧
        step s1 i = some s2 ∧
        s2.threads = ts.set i (Thread.reading (Future.chan d.cells.length)) ∧
        s2.loader.calls = d.calls ++ [[key]] ∧ s2.loader.queue.items = [] := by
  constructor
  · obtain ⟨res, h1, h2, -, h4⟩ := Load_miss_total d key hk hm hq hmiss
    exact ⟨res, h1, h2, h4⟩
  · intro ts i hi
    have hsec := loadSection_miss { d with mutex := true } key hq hmiss
    simp only [hb, Bool.false_eq_true, if_false] at hsec
    have h1 : step ⟨d, ts⟩ i = some ⟨(dispatchBegin (afterSection { d with mutex := true } key)).2,
        ts.set i (Thread.dispatching (Future.chan d.cells.length)
          (dispatchBegin (afterSection { d with mutex := true } key)).1)⟩ := by
      simp [step, hi, stepLoad, hk, hm, hsec]
    have hi2 : (ts.set i (Thread.dispatching (Future.chan d.cells.length)
        [⟨key, d.cells.length⟩]))[i]? =
        some (Thread.dispatching (Future.chan d.cells.length) [⟨key, d.cells.length⟩]) :=
      get_set_same ts i _ _ hi
    obtain ⟨-, f2, f3⟩ := dispatchEnd_frame
      (dispatchBegin (afterSection { d with mutex := true } key)).2
      [⟨key, d.cells.length⟩]
    refine ⟨_, ⟨dispatchEnd (dispatchBegin (afterSection { d with mutex := true } key)).2
      [⟨key, d.cells.length⟩], ts.set i (Thread.reading (Future.chan d.cells.length))⟩,
      h1, rfl, rfl, rfl, ?_, rfl, ?_, ?_⟩
    · show step ⟨_, ts.set i (Thread.dispatching (Future.chan d.cells.length)
        [⟨key, d.cells.length⟩])⟩ i = _
      simp [step, hi2]
    · show (dispatchEnd _ _).calls = _
      rw [f3]; rfl
    · show (dispatchEnd _ _).queue.items = _
      rw [f2]; rfl

/-- Witness for C12: `Load(3)` on a new loader with both options off. -/
theorem Load_without_batching_witness :
    ∃ res, (Load (NewDataLoader doubleKeys (some optionsOff) ()) (Value.int 3)).1 = some res ∧
      (Load (NewDataLoader doubleKeys (some optionsOff) ()) (Value.int 3)).2.calls =
        [[Value.int 3]] ∧
      (Load (NewDataLoader doubleKeys (some optionsOff) ()) (Value.int 3)).2.queue.items = [] :=
  (Load_without_batching (NewDataLoader doubleKeys (some optionsOff) ()) (Value.int 3)
    (by simp) rfl rfl rfl (fun h => absurd h (by simp [shouldCache, NewDataLoader, optionsOff]))).1

/-! ## Cache key transform -/

/-- C19: with memoization enabled and a cache key transform `g`, on a loader at
rest, for non-nil keys `k1`, `k2` with `g k1 = g k2`: a `Load(k1)` that misses and
whose batch call succeeds passes the raw key list `[k1]` to the batch function and
stores its result under `g k1`; after any later operations that complete without
a `ClearAll` or a `Clear` of that cache key, `Load(k2)` returns the same pair and
leaves the loader as it found it (no call of the batch function). -/
theorem cache_key_transform (d : DataLoader W) (o : Options) (g : Value → Value)
    (k1 k2 v : Value) (hopt : d.options = some o) (hcache : o.Cache = true)
    (hg : o.CacheKeyFn = some g) (hk1 : k1 ≠ Value.nil) (hk2 : k2 ≠ Value.nil)
    (hgk : g k1 = g k2) (h : AtRest d) (hmiss : d.futureCache.Get (g k1) = none)
    (hfn : (d.batchLoadFn d.world [k1]).1 = ([v], none)) :
    (Load d k1).1 = some (resultOf v) ∧
    (Load d k1).2.calls = d.calls ++ [[k1]] ∧
    (Load d k1).2.futureCache.Get (g k1) = some (Future.chan d.cells.length) ∧
    ∀ ops : List Op, (∀ op ∈ ops, Op.evicts d.options (g k1) op = false) →
      Load (runOps (Load d k1).2 ops) k2 = (some (resultOf v), runOps (Load d k1).2 ops) := by
  have hck1 : cacheKeyOf d.options k1 = g k1 := by simp [cacheKeyOf, hopt, hg]
  have hck2 : cacheKeyOf d.options k2 = g k1 := by simp [cacheKeyOf, hopt, hg, hgk]
  have hc : shouldCache d.options = true := by simp [shouldCache, hopt, hcache]
  have hmiss2 : shouldCache d.options = true →
      d.futureCache.Get (cacheKeyOf d.options k1) = none := fun _ => by rw [hck1]; exact hmiss
  have hL := Load_miss_ok d k1 hk1 h.mutex h.queue hmiss2 v hfn
  have hget : (Load d k1).2.futureCache.Get (g k1) = some (Future.chan d.cells.length) := by
    rw [hL]
    show (afterPush d k1).futureCache.Get (g k1) = _
    rw [afterPush_cache, if_pos hc, hck1]
    exact Map.Get_Set_self _ _ _
  have hcell : (Load d k1).2.cells[d.cells.length]? =
      some (Cell.mk (resultOf v).1 (resultOf v).2 1) := by
    rw [hL]
    show (d.cells ++ [Cell.mk (resultOf v).1 (resultOf v).2 1])[d.cells.length]? = _
    simp
  obtain ⟨res, -, hrest, hopt2, -, -⟩ := Load_atRest d k1 h
  refine ⟨by rw [hL], by rw [hL], hget, ?_⟩
  intro ops hops
  obtain ⟨j1, j2, j3, j4⟩ := runOps_keeps_entry d.options (g k1)
    (Future.chan d.cells.length) d.cells.length (Cell.mk (resultOf v).1 (resultOf v).2 1) hc ops
    (Load d k1).2 ⟨hrest, hopt2, hget, hcell⟩ hops
  have hhit := Load_hit (runOps (Load d k1).2 ops) k2 (Future.chan d.cells.length) hk2
    j1.mutex (j2 ▸ hc) (by rw [j2, hck2]; exact j3)
  rw [hhit]
  simp [Future.call, j4]

/-- Witness for C19: keys 3 and -3 share the cache key 3; the doubling function is
called with `[3]` once, and `Load(-3)` returns 6 as well. -/
theorem cache_key_transform_witness :
    (Load (NewDataLoader doubleKeys (some optionsAbs) ()) (Value.int 3)).2.calls =
      [[Value.int 3]] ∧
    Load (runOps (Load (NewDataLoader doubleKeys (some optionsAbs) ()) (Value.int 3)).2 [])
        (Value.int (-3)) =
      (some (Value.int 6, none),
        runOps (Load (NewDataLoader doubleKeys (some optionsAbs) ()) (Value.int 3)).2 []) :=
  ⟨(cache_key_transform (NewDataLoader doubleKeys (some optionsAbs) ()) optionsAbs absKey
      (Value.int 3) (Value.int (-3)) (Value.int 6) rfl rfl rfl (by simp) (by simp)
      (by decide)
      (atRest_new _ _ _) rfl rfl).2.1,
   (cache_key_transform (NewDataLoader doubleKeys (some optionsAbs) ()) optionsAbs absKey
      (Value.int 3) (Value.int (-3)) (Value.int 6) rfl rfl rfl (by simp) (by simp)
      (by decide)
      (atRest_new _ _ _) rfl rfl).2.2.2 [] (by simp)⟩

/-! ## Fan-out of a batch result -/

theorem resolveItems_cons (cells : List Cell) (item : LoaderQueueItem)
    (items : List LoaderQueueItem) (v : Value) (values : List Value) :
    resolveItems cells (item :: items) (v :: values) =
      resolveItems (resolveCell cells item.Resolve (resultOf v).1 (resultOf v).2) items values := by
  cases v <;> rfl

theorem resolveItems_nil_left (cells : List Cell) (values : List Value) :
    resolveItems cells [] values = cells := by
  cases values <;> rfl

theorem resolveItems_nil_right (cells : List Cell) (items : List LoaderQueueItem) :
    resolveItems cells items [] = cells := by
  cases items <;> rfl

theorem resolveCell_get_closes (cells : List Cell) (c : Nat) (v : Value) (e : Option GoError)
    (cell : Cell) (h : cells[c]? = some cell) :
    (resolveCell cells c v e)[c]? = some (Cell.mk v e (cell.closes + 1)) := by
  have hlt : c < cells.length := by
    by_contra hge
    rw [List.getElem?_eq_none (by omega)] at h
    exact absurd h (by simp)
  simp [resolveCell, h, hlt]

/-- The cells after the fan-out loop, as one fold over the items paired with the
values at their positions. -/
theorem resolveItems_eq_foldl (cells : List Cell) (items : List LoaderQueueItem)
    (values : List Value) :
    resolveItems cells items values =
      (items.zip values).foldl
        (fun cs p => resolveCell cs p.1.Resolve (resultOf p.2).1 (resultOf p.2).2) cells := by
  induction items generalizing cells values with
  | nil => rw [resolveItems_nil_left]; rfl
  | cons item items ih =>
    cases values with
    | nil => rw [resolveItems_nil_right]; rfl
    | cons v values => rw [resolveItems_cons, ih]; rfl

/-- Each `Resolve` closure is called as many times as there are items carrying it
(fan-out loop, result list as long as the item list). -/
theorem resolveItems_closes (cells : List Cell) (items : List LoaderQueueItem)
    (values : List Value) (hlen : values.length = items.length) (c : Nat) (cell : Cell)
    (h : cells[c]? = some cell) :
    ∃ cell2, (resolveItems cells items values)[c]? = some cell2 ∧
      cell2.closes = cell.closes + items.countP (fun item => decide (item.Resolve = c)) := by
  induction items generalizing cells values cell with
  | nil => rw [resolveItems_nil_left]; exact ⟨cell, h, by simp⟩
  | cons item items ih =>
    cases values with
    | nil => simp at hlen
    | cons v values =>
      rw [resolveItems_cons]
      have hlen2 : values.length = items.length := by simpa using hlen
      by_cases hc : item.Resolve = c
      · have h2 := resolveCell_get_closes cells c (resultOf v).1 (resultOf v).2 cell h
        rw [← hc] at h2
        rw [hc] at h2
        obtain ⟨cell2, h3, h4⟩ := ih (resolveCell cells item.Resolve (resultOf v).1 (resultOf v).2)
          values hlen2 _ (by rw [hc]; exact h2)
        refine ⟨cell2, h3, ?_⟩
        rw [h4, List.countP_cons_of_pos _ _ (by simp [hc])]
        simp only
        omega
      · have h2 : (resolveCell cells item.Resolve (resultOf v).1 (resultOf v).2)[c]? =
            some cell := by
          rw [resolveCell_get_other cells _ _ (fun h => hc h.symm)]; exact h
        obtain ⟨cell2, h3, h4⟩ := ih _ values hlen2 _ h2
        refine ⟨cell2, h3, ?_⟩
        rw [h4, List.countP_cons_of_neg _ _ (by simp [hc])]

/-- Each `Resolve` closure is called as many times as there are items carrying it
(whole batch failure). -/
theorem failedDispatch_closes (d : DataLoader W) (items : List LoaderQueueItem)
    (err : GoError) (c : Nat) (cell : Cell) (h : d.cells[c]? = some cell) :
    ∃ cell2, (failedDispatch d items err).cells[c]? = some cell2 ∧
      cell2.closes = cell.closes + items.countP (fun item => decide (item.Resolve = c)) := by
  induction items generalizing d cell with
  | nil => exact ⟨cell, h, by simp⟩
  | cons item items ih =>
    rw [failedDispatch_cons]
    by_cases hc : item.Resolve = c
    · have h2 := resolveCell_get_closes d.cells c Value.nil (some err) cell h
      obtain ⟨cell2, h3, h4⟩ := ih
        { Clear d item.Key with cells := resolveCell d.cells item.Resolve Value.nil (some err) }
        _ (by rw [hc]; exact h2)
      refine ⟨cell2, h3, ?_⟩
      rw [h4, List.countP_cons_of_pos _ _ (by simp [hc])]
      simp only
      omega
    · have h2 : (resolveCell d.cells item.Resolve Value.nil (some err))[c]? = some cell := by
        rw [resolveCell_get_other d.cells _ _ (fun h => hc h.symm)]; exact h
      obtain ⟨cell2, h3, h4⟩ := ih
        { Clear d item.Key with cells := resolveCell d.cells item.Resolve Value.nil (some err) }
        _ h2
      refine ⟨cell2, h3, ?_⟩
      rw [h4, List.countP_cons_of_neg _ _ (by simp [hc])]

/-- The two ways `dispatchEnd` ends: a whole batch failure, or the fan-out of a
result list as long as the item list. -/
theorem dispatchEnd_cases (d : DataLoader W) (items : List LoaderQueueItem) :
    (∃ err, dispatchEnd d items = failedDispatch
      { d with
        world := (d.batchLoadFn d.world (items.map fun item => item.Key)).2
        calls := d.calls ++ [items.map fun item => item.Key] } items err) ∨
    ((d.batchLoadFn d.world (items.map fun item => item.Key)).1.2 = none ∧
      (d.batchLoadFn d.world (items.map fun item => item.Key)).1.1.length = items.length ∧
      dispatchEnd d items =
        { d with
          world := (d.batchLoadFn d.world (items.map fun item => item.Key)).2
          calls := d.calls ++ [items.map fun item => item.Key]
          cells := resolveItems d.cells items
            (d.batchLoadFn d.world (items.map fun item => item.Key)).1.1 }) := by
  cases he : (d.batchLoadFn d.world (items.map fun item => item.Key)).1.2 with
  | some err =>
    left
    exact ⟨err, by simp [dispatchEnd, he]⟩
  | none =>
    by_cases hl : (d.batchLoadFn d.world (items.map fun item => item.Key)).1.1.length =
        items.length
    · right
      exact ⟨rfl, hl, by simp [dispatchEnd, he, hl]⟩
    · left
      exact ⟨shapeError (items.map fun item => item.Key)
        (d.batchLoadFn d.world (items.map fun item => item.Key)).1.1,
        by simp [dispatchEnd, he, hl]⟩

theorem resolveItems_get_other (cells : List Cell) (items : List LoaderQueueItem)
    (values : List Value) (c : Nat) (hc : c ∉ items.map fun item => item.Resolve) :
    (resolveItems cells items values)[c]? = cells[c]? := by
  induction items generalizing cells values with
  | nil => rw [resolveItems_nil_left]
  | cons item items ih =>
    cases values with
    | nil => rw [resolveItems_nil_right]
    | cons v values =>
      simp only [List.map_cons, List.mem_cons, not_or] at hc
      rw [resolveItems_cons, ih _ _ hc.2, resolveCell_get_other cells _ _ hc.1]

theorem resolveItems_get_nodup (cells : List Cell) (items : List LoaderQueueItem)
    (values : List Value) (hnd : (items.map fun item => item.Resolve).Nodup)
    (hcells : ∀ item ∈ items, item.Resolve < cells.length)
    (j : Nat) (item : LoaderQueueItem) (v : Value)
    (hi : items[j]? = some item) (hv : values[j]? = some v) :
    ∃ n, (resolveItems cells items values)[item.Resolve]? =
      some (Cell.mk (resultOf v).1 (resultOf v).2 (n + 1)) := by
  induction items generalizing cells values j with
  | nil => simp at hi
  | cons item0 items ih =>
    cases values with
    | nil => simp at hv
    | cons v0 values =>
      rw [resolveItems_cons]
      simp only [List.map_cons, List.nodup_cons] at hnd
      cases j with
      | zero =>
        simp only [List.getElem?_cons_zero, Option.some.injEq] at hi hv
        subst hi hv
        rw [resolveItems_get_other _ _ _ _ hnd.1]
        exact resolveCell_get_self cells item0.Resolve _ _
          (hcells item0 (List.mem_cons_self _ _))
      | succ j =>
        simp only [List.getElem?_cons_succ] at hi hv
        apply ih _ values hnd.2 _ j hi hv
        intro it hit
        rw [resolveCell_length]
        exact hcells it (List.mem_cons_of_mem _ hit)

theorem countP_resolve_nodup (items : List LoaderQueueItem)
    (hnd : (items.map fun item => item.Resolve).Nodup) (item : LoaderQueueItem)
    (hi : item ∈ items) :
    items.countP (fun it => decide (it.Resolve = item.Resolve)) = 1 := by
  induction items with
  | nil => exact absurd hi (List.not_mem_nil _)
  | cons item0 items ih =>
    simp only [List.map_cons, List.nodup_cons] at hnd
    rcases List.mem_cons.mp hi with h | h
    · subst h
      rw [List.countP_cons_of_pos _ _ (by simp)]
      have : items.countP (fun it => decide (it.Resolve = item.Resolve)) = 0 := by
        rw [List.countP_eq_zero]
        intro it hit
        simp only [decide_eq_true_eq]
        intro heq
        exact hnd.1 (List.mem_map.mpr ⟨it, hit, heq⟩)
      rw [this]
    · have hne : item0.Resolve ≠ item.Resolve := by
        intro heq
        exact hnd.1 (List.mem_map.mpr ⟨item, h, heq.symm⟩)
      rw [List.countP_cons_of_neg _ _ (by simp [hne])]
      exact ih hnd.2 h

theorem dispatchQueue_eq (d : DataLoader W) :
    dispatchQueue d = dispatchEnd { d with queue := ⟨[]⟩ } d.queue.items := rfl

/-- C16: for every pending queue, `dispatchQueue` invokes the batch function once,
with exactly the keys of the queued items in push order (duplicates kept), and
empties the queue. When the call returns `(values, nil)` with as many values as
items, the cells are those obtained by resolving, item by item in order, item `j`
with `(nil, values[j])` if `values[j]` is an error value and `(values[j], nil)`
otherwise; with one closure per item, the future of item `j` then reads that
pair. -/
theorem dispatchQueue_positional (d : DataLoader W) :
    (dispatchQueue d).calls = d.calls ++ [d.queue.items.map fun item => item.Key] ∧
    (dispatchQueue d).queue.items = [] ∧
    ∀ values : List Value,
      (d.batchLoadFn d.world (d.queue.items.map fun item => item.Key)).1 = (values, none) →
      values.length = d.queue.items.length →
      (dispatchQueue d).cells = (d.queue.items.zip values).foldl
        (fun cs p => resolveCell cs p.1.Resolve (resultOf p.2).1 (resultOf p.2).2) d.cells ∧
      ((d.queue.items.map fun item => item.Resolve).Nodup →
        (∀ item ∈ d.queue.items, item.Resolve < d.cells.length) →
        ∀ (j : Nat) (item : LoaderQueueItem) (v : Value),
          d.queue.items[j]? = some item → values[j]? = some v →
          (Future.chan item.Resolve).call (dispatchQueue d).cells = some (resultOf v)) := by
  obtain ⟨-, f2, f3⟩ := dispatchEnd_frame { d with queue := ⟨[]⟩ } d.queue.items
  refine ⟨f3, by rw [dispatchQueue_eq, f2], ?_⟩
  intro values hfn hlen
  have hcells : (dispatchQueue d).cells = resolveItems d.cells d.queue.items values := by
    rw [dispatchQueue_eq]
    have h1 : (d.batchLoadFn d.world (d.queue.items.map fun item => item.Key)).1.2 = none := by
      rw [hfn]
    have h2 : (d.batchLoadFn d.world (d.queue.items.map fun item => item.Key)).1.1 = values := by
      rw [hfn]
    simp [dispatchEnd, h1, h2, hlen]
  refine ⟨by rw [hcells, resolveItems_eq_foldl], ?_⟩
  intro hnd hlt j item v hi hv
  rw [hcells]
  exact call_of_resolved _ _ _ _ (resolveItems_get_nodup d.cells d.queue.items values hnd hlt
    j item v hi hv)

/-- Witness for C16: two pending items (keys 1 and 2) and a batch function that
answers `[1, error]`: the first future reads `(1, nil)`, the second `(nil, error)`. -/
theorem dispatchQueue_positional_witness :
    (Future.chan 0).call (dispatchQueue twoPendingOk).cells = some (Value.int 1, none) ∧
    (Future.chan 1).call (dispatchQueue twoPendingOk).cells =
      some (Value.nil, some ⟨"no such row"⟩) :=
  ⟨((dispatchQueue_positional twoPendingOk).2.2
      [Value.int 1, Value.error ⟨"no such row"⟩] rfl rfl).2
      (by decide) (by decide) 0 ⟨Value.int 1, 0⟩ (Value.int 1) rfl rfl,
   ((dispatchQueue_positional twoPendingOk).2.2
      [Value.int 1, Value.error ⟨"no such row"⟩] rfl rfl).2
      (by decide) (by decide) 1 ⟨Value.int 2, 1⟩ (Value.error ⟨"no such row"⟩) rfl rfl⟩

/-- C17: for every drained batch and every outcome of the batch function (a
result list of the right length, with or without error values; a returned error;
a length mismatch), `dispatchQueue` runs the `Resolve` closure over each future
cell as many times as there are items carrying that closure: `close(c)` is
executed once per item. With one closure per item (as `Load` makes them), the
cell of every item is closed exactly once more, so a fresh cell ends closed once:
never left open, never closed twice. -/
theorem dispatchQueue_resolves_each_item_once (d : DataLoader W) :
    (∀ (c : Nat) (cell : Cell), d.cells[c]? = some cell →
      ∃ cell2, (dispatchQueue d).cells[c]? = some cell2 ∧
        cell2.closes = cell.closes +
          d.queue.items.countP (fun item => decide (item.Resolve = c))) ∧
    ((d.queue.items.map fun item => item.Resolve).Nodup →
      ∀ item ∈ d.queue.items, ∀ cell : Cell, d.cells[item.Resolve]? = some cell →
        ∃ cell2, (dispatchQueue d).cells[item.Resolve]? = some cell2 ∧
          cell2.closes = cell.closes + 1) := by
  have hall : ∀ (c : Nat) (cell : Cell), d.cells[c]? = some cell →
      ∃ cell2, (dispatchQueue d).cells[c]? = some cell2 ∧
        cell2.closes = cell.closes +
          d.queue.items.countP (fun item => decide (item.Resolve = c)) := by
    intro c cell h
    rw [dispatchQueue_eq]
    rcases dispatchEnd_cases { d with queue := ⟨[]⟩ } d.queue.items with ⟨err, he⟩ | ⟨-, hl, he⟩
    · rw [he]
      exact failedDispatch_closes _ _ err c cell h
    · rw [he]
      exact resolveItems_closes d.cells d.queue.items _ hl c cell h
  refine ⟨hall, ?_⟩
  intro hnd item hi cell h
  obtain ⟨cell2, h1, h2⟩ := hall item.Resolve cell h
  exact ⟨cell2, h1, by rw [h2, countP_resolve_nodup _ hnd item hi]⟩

/-- Witness for C17: the two open cells of a failing dispatch end closed once. -/
theorem dispatchQueue_resolves_each_item_once_witness :
    ∃ cell2, (dispatchQueue twoPending).cells[0]? = some cell2 ∧ cell2.closes = 0 + 1 :=
  (dispatchQueue_resolves_each_item_once twoPending).2 (by decide) ⟨Value.int 1, 0⟩
    (by decide) (Cell.mk Value.nil none 0) rfl

/-! ## The pending queue -/

theorem runQueue_concat (ops : List QueueOp) (op : QueueOp) :
    runQueue (ops ++ [op]) = QueueOp.run (runQueue ops) op := by
  simp [runQueue, List.foldl_append]

theorem pushedSinceLastDump_push (ops : List QueueOp) (item : LoaderQueueItem) :
    pushedSinceLastDump (ops ++ [QueueOp.push item]) = pushedSinceLastDump ops ++ [item] := by
  simp [pushedSinceLastDump, List.takeWhile_cons, QueueOp.pushed, List.filterMap_append]

theorem pushedSinceLastDump_dump (ops : List QueueOp) :
    pushedSinceLastDump (ops ++ [QueueOp.dump]) = [] := by
  simp [pushedSinceLastDump, List.takeWhile_cons, QueueOp.pushed]

theorem runQueue_spec (ops : List QueueOp) :
    (runQueue ops).1.items = pushedSinceLastDump ops ∧
    (runQueue ops).2.flatten ++ (runQueue ops).1.items = allPushed ops := by
  induction ops using List.reverseRecOn with
  | nil => exact ⟨rfl, rfl⟩
  | append_singleton ops op ih =>
    rw [runQueue_concat]
    cases op with
    | push item =>
      rw [pushedSinceLastDump_push]
      refine ⟨by simp [QueueOp.run, LoaderQueue.Push, ih.1], ?_⟩
      simp only [QueueOp.run, LoaderQueue.Push, allPushed, List.filterMap_append]
      rw [← List.append_assoc, ih.2]
      simp [allPushed, QueueOp.pushed]
    | dump =>
      rw [pushedSinceLastDump_dump]
      refine ⟨rfl, ?_⟩
      simp only [QueueOp.run, LoaderQueue.DumpItems, allPushed, List.filterMap_append,
        List.flatten_append]
      simp only [List.append_nil]
      have := ih.2
      simp only [allPushed] at this
      simp [this, QueueOp.pushed]

/-- C18: after any sequence of `Push` and `DumpItems` on a new queue, the queue
holds exactly the items pushed since the last `DumpItems` (or since creation), in
push order, and `Size()` is their number; a `DumpItems` issued then returns
exactly those items and leaves the queue empty (`Size() = 0`); and the drains
returned so far, one after the other, followed by the items still queued, are
exactly the pushed items in push order, so every pushed item is in one drain only
(or still queued). -/
theorem queue_push_and_drain (ops : List QueueOp) :
    (runQueue ops).1.items = pushedSinceLastDump ops ∧
    (runQueue ops).1.Size = (pushedSinceLastDump ops).length ∧
    (runQueue ops).1.DumpItems.1 = pushedSinceLastDump ops ∧
    (runQueue ops).1.DumpItems.2.Size = 0 ∧
    (runQueue (ops ++ [QueueOp.dump])).2 = (runQueue ops).2 ++ [pushedSinceLastDump ops] ∧
    (runQueue ops).2.flatten ++ (runQueue ops).1.items = allPushed ops := by
  obtain ⟨h1, h2⟩ := runQueue_spec ops
  refine ⟨h1, by simp [LoaderQueue.Size, h1], by simp [LoaderQueue.DumpItems, h1], rfl, ?_, h2⟩
  rw [runQueue_concat]
  simp [QueueOp.run, LoaderQueue.DumpItems, h1]

/-! ## Fan-out helper -/

theorem receiveLoop_values (msgs : List IndexedValue) (values : List Value) :
    receiveLoop msgs.length (msgs.map Message.res) values =
      some (msgs.foldl (fun vs iv => vs.set iv.Index iv.Value) values, none) := by
  induction msgs generalizing values with
  | nil => rfl
  | cons m msgs ih =>
    show receiveLoop (msgs.length + 1) (Message.res m :: msgs.map Message.res) values = _
    rw [receiveLoop, ih]
    rfl

theorem receiveLoop_error (msgs : List Message) (values : List Value)
    (h : ∃ e, Message.err e ∈ msgs) :
    ∃ e, Message.err e ∈ msgs ∧ receiveLoop msgs.length msgs values = some ([], some e) := by
  induction msgs generalizing values with
  | nil =>
    obtain ⟨e, he⟩ := h
    exact absurd he (List.not_mem_nil _)
  | cons m msgs ih =>
    cases m with
    | err e => exact ⟨e, List.mem_cons_self _ _, rfl⟩
    | res iv =>
      have h2 : ∃ e, Message.err e ∈ msgs := by
        obtain ⟨e, he⟩ := h
        rcases List.mem_cons.mp he with h1 | h1
        · exact absurd h1 (by simp)
        · exact ⟨e, h1⟩
      obtain ⟨e, he, hr⟩ := ih (values.set iv.Index iv.Value) h2
      refine ⟨e, List.mem_cons_of_mem _ he, ?_⟩
      show receiveLoop (msgs.length + 1) (Message.res iv :: msgs) values = _
      rw [receiveLoop]
      exact hr

theorem foldl_set_get (f : Nat → Value) (order : List Nat) (values : List Value) (j : Nat)
    (hj : j < values.length) :
    (order.foldl (fun vs i => vs.set i (f i)) values)[j]? =
      if j ∈ order then some (f j) else values[j]? := by
  induction order generalizing values with
  | nil => simp
  | cons i order ih =>
    simp only [List.foldl_cons]
    rw [ih (values.set i (f i)) (by rw [List.length_set]; exact hj)]
    by_cases hjo : j ∈ order
    · simp [hjo]
    · by_cases hji : j = i
      · subst hji
        simp [hjo, List.getElem?_set_self hj]
      · simp [hjo, hji, List.getElem?_set_ne (fun h => hji h.symm)]

theorem foldl_set_length (f : Nat → Value) (order : List Nat) (values : List Value) :
    (order.foldl (fun vs i => vs.set i (f i)) values).length = values.length := by
  induction order generalizing values with
  | nil => rfl
  | cons i order ih => simp only [List.foldl_cons]; rw [ih, List.length_set]

theorem mem_range_of_perm {order : List Nat} {n : Nat} (hperm : order.Perm (List.range n))
    (i : Nat) : i ∈ order ↔ i < n := by
  rw [hperm.mem_iff, List.mem_range]

theorem sends_length (results : List Result) (order : List Nat)
    (h : ∀ i ∈ order, i < results.length) :
    (order.filterMap fun i => (results[i]?).map (goroutineSend i)).length = order.length := by
  induction order with
  | nil => rfl
  | cons i order ih =>
    have hi : i < results.length := h i (List.mem_cons_self _ _)
    rw [List.filterMap_cons, List.getElem?_eq_getElem hi]
    simp only [Option.map_some', List.length_cons]
    rw [ih (fun j hj => h j (List.mem_cons_of_mem _ hj))]

theorem sends_of_success (results : List Result) (order : List Nat)
    (h : ∀ i ∈ order, i < results.length) (hok : ∀ r ∈ results, r.2 = none) :
    (order.filterMap fun i => (results[i]?).map (goroutineSend i)) =
      (order.map fun i => IndexedValue.mk i ((results[i]?).map Prod.fst |>.getD Value.nil)).map
        Message.res := by
  induction order with
  | nil => rfl
  | cons i order ih =>
    have hi : i < results.length := h i (List.mem_cons_self _ _)
    rw [List.filterMap_cons, List.getElem?_eq_getElem hi]
    simp only [Option.map_some', List.map_cons, Option.getD_some]
    rw [ih (fun j hj => h j (List.mem_cons_of_mem _ hj))]
    have : (results[i]).2 = none := hok _ (List.getElem_mem hi)
    simp [goroutineSend, this, List.getElem?_eq_getElem hi]

/-- The fan-out helper over the results of its goroutines: in whatever order they
send, if no call failed the values come back in index order, and if some call
failed the error of one failing call comes back with the nil list. -/
theorem FutureAllOf_results (results : List Result) (order : List Nat)
    (hperm : order.Perm (List.range results.length)) :
    ((∀ r ∈ results, r.2 = none) →
      FutureAllOf results order = some (results.map Prod.fst, none)) ∧
    ((∃ r ∈ results, r.2 ≠ none) →
      ∃ r ∈ results, ∃ e, r.2 = some e ∧ FutureAllOf results order = some ([], some e)) := by
  have hin : ∀ i ∈ order, i < results.length := fun i hi => (mem_range_of_perm hperm i).mp hi
  have hlen : order.length = results.length := by
    rw [hperm.length_eq, List.length_range]
  constructor
  · intro hok
    unfold FutureAllOf
    rw [sends_of_success results order hin hok]
    have hl : results.length = (order.map fun i =>
        IndexedValue.mk i ((results[i]?).map Prod.fst |>.getD Value.nil)).length := by
      rw [List.length_map, hlen]
    rw [show receiveLoop results.length = receiveLoop (order.map fun i =>
        IndexedValue.mk i ((results[i]?).map Prod.fst |>.getD Value.nil)).length from by
      rw [← hl]]
    rw [receiveLoop_values, List.foldl_map]
    simp only [Option.some.injEq, Prod.mk.injEq, and_true]
    apply List.ext_getElem?
    intro j
    by_cases hj : j < results.length
    · rw [foldl_set_get (fun i => (results[i]?).map Prod.fst |>.getD Value.nil) order _ j
        (by rw [List.length_replicate]; exact hj)]
      rw [if_pos ((mem_range_of_perm hperm j).mpr hj)]
      simp [List.getElem?_eq_getElem hj]
    · rw [List.getElem?_eq_none, List.getElem?_eq_none]
      · rw [List.length_map]; omega
      · rw [foldl_set_length, List.length_replicate]; omega
  · intro hfail
    obtain ⟨r, hr, hne⟩ := hfail
    obtain ⟨i, hi, hget⟩ := List.getElem_of_mem hr
    cases he : r.2 with
    | none => exact absurd he hne
    | some e0 =>
      have hmem : ∃ e, Message.err e ∈
          (order.filterMap fun i => (results[i]?).map (goroutineSend i)) := by
        refine ⟨e0, List.mem_filterMap.mpr ⟨i, (mem_range_of_perm hperm i).mpr hi, ?_⟩⟩
        rw [List.getElem?_eq_getElem hi, hget]
        simp [goroutineSend, he]
      obtain ⟨e, hemem, hrun⟩ := receiveLoop_error _
        (List.replicate results.length Value.nil) hmem
      rw [sends_length results order hin, hlen] at hrun
      obtain ⟨k, -, hk⟩ := List.mem_filterMap.mp hemem
      cases hrk : results[k]? with
      | none => rw [hrk] at hk; simp at hk
      | some rk =>
        rw [hrk] at hk
        simp only [Option.map_some', Option.some.injEq] at hk
        have hrk2 : rk.2 = some e := by
          unfold goroutineSend at hk
          cases h2 : rk.2 with
          | none => rw [h2] at hk; simp at hk
          | some e2 => rw [h2] at hk; simp at hk; rw [hk]
        exact ⟨rk, List.getElem?_mem hrk, e, hrk2, hrun⟩

theorem loadEach_aux (keys : List Value) (exec : List Nat)
    (st0 : (Nat → Option Result) × DataLoader W) (h0 : AtRest st0.2) :
    AtRest (exec.foldl
      (fun st i =>
        match keys[i]? with
        | none => st
        | some key => (fun j => if j = i then (Load st.2 key).1 else st.1 j, (Load st.2 key).2))
      st0).2 ∧
    ∀ j, ((st0.1 j).isSome = true ∨ (j ∈ exec ∧ j < keys.length)) →
      ((exec.foldl
        (fun st i =>
          match keys[i]? with
          | none => st
          | some key => (fun j => if j = i then (Load st.2 key).1 else st.1 j, (Load st.2 key).2))
        st0).1 j).isSome = true := by
  induction exec generalizing st0 with
  | nil =>
    refine ⟨h0, ?_⟩
    intro j hj
    rcases hj with hj | ⟨hj, -⟩
    · exact hj
    · exact absurd hj (List.not_mem_nil _)
  | cons i exec ih =>
    simp only [List.foldl_cons]
    cases hk : keys[i]? with
    | none =>
      obtain ⟨h1, h2⟩ := ih st0 h0
      refine ⟨h1, ?_⟩
      intro j hj
      apply h2
      rcases hj with hj | ⟨hj, hlt⟩
      · exact Or.inl hj
      · rcases List.mem_cons.mp hj with h | h
        · subst h
          rw [List.getElem?_eq_getElem hlt] at hk
          exact absurd hk (by simp)
        · exact Or.inr ⟨h, hlt⟩
    | some key =>
      obtain ⟨res, hres, hrest, -⟩ := Load_atRest st0.2 key h0
      obtain ⟨h1, h2⟩ := ih
        (fun j => if j = i then (Load st0.2 key).1 else st0.1 j, (Load st0.2 key).2) hrest
      refine ⟨h1, ?_⟩
      intro j hj
      apply h2
      by_cases hji : j = i
      · left
        simp [hji, hres]
      · rcases hj with hj | ⟨hj, hlt⟩
        · left
          simp [hji, hj]
        · rcases List.mem_cons.mp hj with h | h
          · exact absurd h hji
          · exact Or.inr ⟨h, hlt⟩

/-- From a loader at rest every `Load` of a `LoadMany` returns, and `LoadMany` is
the fan-out helper over what the calls returned. -/
theorem LoadMany_eq (d : DataLoader W) (keys : List Value) (exec : List Nat) (h : AtRest d)
    (hexec : exec.Perm (List.range keys.length)) :
    ∃ results : List Result, results.length = keys.length ∧
      (∀ i, i < keys.length → (loadEach d keys exec).1 i = results[i]?) ∧
      ∀ order : List Nat, (∀ i ∈ order, i < keys.length) →
        (LoadMany d keys exec order).1 = FutureAllOf results order := by
  obtain ⟨-, hsome⟩ := loadEach_aux keys exec (fun _ => none, d) h
  have hget : ∀ i, i < keys.length →
      (loadEach d keys exec).1 i =
        ((List.range keys.length).map fun i =>
          ((loadEach d keys exec).1 i).getD (Value.nil, none))[i]? := by
    intro i hi
    have h1 := hsome i (Or.inr ⟨(mem_range_of_perm hexec i).mpr hi, hi⟩)
    rw [List.getElem?_map, List.getElem?_range hi]
    simp only [Option.map_some']
    cases hv : (loadEach d keys exec).1 i with
    | none =>
      have h2 : ((loadEach d keys exec).1 i).isSome = true := h1
      rw [hv] at h2
      exact absurd h2 (by simp)
    | some r => rfl
  refine ⟨(List.range keys.length).map fun i =>
    ((loadEach d keys exec).1 i).getD (Value.nil, none), by simp, hget, ?_⟩
  intro order horder
  unfold LoadMany FutureAllOf
  simp only [List.length_map, List.length_range]
  congr 1
  apply List.filterMap_congr
  intro i hi
  rw [hget i (horder i hi)]

/-- C11: `FutureAll(keys, fn)` returns, in whatever order the goroutines send:
when `fn` succeeds on every key, the list of the values `fn` returned, in key
order (so of length `len(keys)`, the empty list for no keys), with a nil error;
and when `fn` fails on some key, `(nil, e)` for the error `e` of one of the failing
calls. The same holds for `LoadMany(keys)` on a loader at rest, whose goroutines
all return from `Load`: its result is that of the fan-out over what the `Load`
calls returned. -/
theorem FutureAll_ordered_or_error (keys : List Value) (fn : Value → Result)
    (order : List Nat) (hperm : order.Perm (List.range keys.length)) :
    ((∀ key ∈ keys, (fn key).2 = none) →
      FutureAll keys fn order = some (keys.map fun key => (fn key).1, none)) ∧
    ((∃ key ∈ keys, (fn key).2 ≠ none) →
      ∃ key ∈ keys, ∃ e, (fn key).2 = some e ∧ FutureAll keys fn order = some ([], some e)) ∧
    ∀ (d : DataLoader W) (exec : List Nat), AtRest d → exec.Perm (List.range keys.length) →
      ∃ results : List Result, results.length = keys.length ∧
        (∀ i, i < keys.length → (loadEach d keys exec).1 i = results[i]?) ∧
        ((∀ r ∈ results, r.2 = none) →
          (LoadMany d keys exec order).1 = some (results.map Prod.fst, none)) ∧
        ((∃ r ∈ results, r.2 ≠ none) →
          ∃ r ∈ results, ∃ e, r.2 = some e ∧
            (LoadMany d keys exec order).1 = some ([], some e)) := by
  have hp : order.Perm (List.range (keys.map fn).length) := by
    rw [List.length_map]; exact hperm
  obtain ⟨hA, hB⟩ := FutureAllOf_results (keys.map fn) order hp
  refine ⟨?_, ?_, ?_⟩
  · intro hok
    have := hA (by
      intro r hr
      obtain ⟨key, hkey, rfl⟩ := List.mem_map.mp hr
      exact hok key hkey)
    unfold FutureAll
    rw [this, List.map_map]
    rfl
  · intro hfail
    obtain ⟨key, hkey, hne⟩ := hfail
    obtain ⟨r, hr, e, he, hrun⟩ := hB ⟨fn key, List.mem_map.mpr ⟨key, hkey, rfl⟩, hne⟩
    obtain ⟨key2, hkey2, rfl⟩ := List.mem_map.mp hr
    exact ⟨key2, hkey2, e, he, hrun⟩
  · intro d exec hrest hexec
    obtain ⟨results, hlen, hget, hrun⟩ := LoadMany_eq d keys exec hrest hexec
    have hp2 : order.Perm (List.range results.length) := by rw [hlen]; exact hperm
    obtain ⟨hA2, hB2⟩ := FutureAllOf_results results order hp2
    have hrun2 := hrun order (fun i hi => (mem_range_of_perm hperm i).mp hi)
    refine ⟨results, hlen, hget, ?_, ?_⟩
    · intro hok; rw [hrun2]; exact hA2 hok
    · intro hfail
      obtain ⟨r, hr, e, he, h3⟩ := hB2 hfail
      exact ⟨r, hr, e, he, by rw [hrun2]; exact h3⟩

/-- Witness for C11: three keys doubled, the goroutines sending in the order 2, 0,
1: the values come back in key order. -/
theorem FutureAll_ordered_or_error_witness :
    FutureAll [Value.int 1, Value.int 2, Value.int 3]
        (fun key => ((doubleKeys () [key]).1.1.headD Value.nil, none)) [2, 0, 1] =
      some ([Value.int 2, Value.int 4, Value.int 6], none) :=
  (FutureAll_ordered_or_error (W := Unit) [Value.int 1, Value.int 2, Value.int 3]
    (fun key => ((doubleKeys () [key]).1.1.headD Value.nil, none)) [2, 0, 1]
    (by decide)).1 (by intro key _; rfl)

/-! ## Configuration -/

/-- C13 (as stated, refuted): a non-nil `Options` value that sets only
`CacheKeyFn` leaves `Batch` and `Cache` at `false`, and `Load` then behaves with
batching and memoization disabled: the caller dispatches by itself (no dispatch
goroutine is started), and a second `Load` of the same key calls the batch
function again. -/
theorem defaults_counterexample :
    shouldBatch (some (optionsKeyFnOnly id)) = false ∧
    shouldCache (some (optionsKeyFnOnly id)) = false ∧
    (run (start doubleKeys (some (optionsKeyFnOnly id)) () [Op.load (Value.int 1)]) [0]).threads
      = [Thread.dispatching (Future.chan 0) [⟨Value.int 1, 0⟩]] ∧
    (Load (Load (NewDataLoader doubleKeys (some (optionsKeyFnOnly id)) ()) (Value.int 1)).2
      (Value.int 1)).2.calls = [[Value.int 1], [Value.int 1]] ∧
    (Load (Load (NewDataLoader doubleKeys (some (optionsKeyFnOnly id)) ()) (Value.int 1)).2
      (Value.int 1)).1 = some (Value.int 2, none) := by
  refine ⟨rfl, rfl, by rfl, by rfl, by rfl⟩

/-- C13 (amended): batching and memoization are enabled by default when no
`Options` value is given (`options == nil`): on a loader at rest a missing `Load`
of a non-nil key then stores its future in the memo store and leaves the dispatch
to a goroutine it starts (no batch call in its own first step), and after a `Load`
whose batch call succeeded a second `Load` of the same key returns the same pair
from the memo store, with no batch call. With a non-nil `Options` value each of
the two is enabled exactly when its field, `Batch` or `Cache`, is true. -/
theorem defaults_when_options_nil (d : DataLoader W) (key : Value) (hopt : d.options = none)
    (hk : key ≠ Value.nil) (h : AtRest d) (hmiss : d.futureCache.Get key = none) :
    shouldBatch d.options = true ∧ shouldCache d.options = true ∧
    (∀ (ts : List Thread) (i : Nat), ts[i]? = some (Thread.called (Op.load key)) →
      ∃ s1, step ⟨d, ts⟩ i = some s1 ∧
        s1.threads = ts.set i (Thread.reading (Future.chan d.cells.length)) ++
          [Thread.jobWaiting] ∧
        s1.loader.futureCache.Get key = some (Future.chan d.cells.length) ∧
        s1.loader.calls = d.calls) ∧
    (∀ v, (d.batchLoadFn d.world [key]).1 = ([v], none) →
      (Load d key).1 = some (resultOf v) ∧
      Load (Load d key).2 key = (some (resultOf v), (Load d key).2)) ∧
    ∀ o : Options, shouldBatch (some o) = o.Batch ∧ shouldCache (some o) = o.Cache := by
  have hb : shouldBatch d.options = true := by rw [hopt]; rfl
  have hc : shouldCache d.options = true := by rw [hopt]; rfl
  have hck : cacheKeyOf d.options key = key := by rw [hopt]; rfl
  have hmiss2 : shouldCache d.options = true →
      d.futureCache.Get (cacheKeyOf d.options key) = none := fun _ => by rw [hck]; exact hmiss
  refine ⟨hb, hc, ?_, ?_, fun o => ⟨rfl, rfl⟩⟩
  · intro ts i hi
    have hsec := loadSection_miss { d with mutex := true } key h.queue hmiss2
    simp only [hb, if_true] at hsec
    refine ⟨⟨afterSection { d with mutex := true } key,
      ts.set i (Thread.reading (Future.chan d.cells.length)) ++ [Thread.jobWaiting]⟩,
      by simp [step, hi, stepLoad, hk, h.mutex, hsec], rfl, ?_, rfl⟩
    show (afterSection { d with mutex := true } key).futureCache.Get key = _
    simp only [afterSection, hc, if_true, hck]
    exact Map.Get_Set_self _ _ _
  · intro v hfn
    have hL := Load_miss_ok d key hk h.mutex h.queue hmiss2 v hfn
    have hget : (Load d key).2.futureCache.Get (cacheKeyOf (Load d key).2.options key) =
        some (Future.chan d.cells.length) := by
      rw [hL]
      show (afterPush d key).futureCache.Get (cacheKeyOf d.options key) = _
      rw [afterPush_cache, if_pos hc]
      exact Map.Get_Set_self _ _ _
    have hhit := Load_hit (Load d key).2 key (Future.chan d.cells.length) hk
      (by rw [hL]; exact h.mutex) (by rw [hL]; exact hc) hget
    refine ⟨by rw [hL], ?_⟩
    rw [hhit]
    rw [hL]
    simp [Future.call]

/-- Witness for C13 (amended): a new loader without options; `Load(3)` twice
returns 6 twice with one batch call. -/
theorem defaults_when_options_nil_witness :
    Load (Load (NewDataLoader doubleKeys none ()) (Value.int 3)).2 (Value.int 3) =
      (some (Value.int 6, none), (Load (NewDataLoader doubleKeys none ()) (Value.int 3)).2) ∧
    (Load (NewDataLoader doubleKeys none ()) (Value.int 3)).2.calls = [[Value.int 3]] :=
  ⟨((defaults_when_options_nil (NewDataLoader doubleKeys none ()) (Value.int 3) rfl (by simp)
      (atRest_new _ _ _) rfl).2.2.2.1 (Value.int 6) rfl).2, by rfl⟩

/-- C14 (defect of the code): `NewDataLoader` never reads `Options.CacheMap`; the
memo store of a new loader is always a new empty `Map`. With a supplied store that
holds the value 5 under key 1, the loader has no entry for key 1, `Load(1)` calls
the batch function (and returns 2, not 5), and the supplied store is as before:
`Load`, `Clear`, `ClearAll` and `Prime` act on the loader's own map. -/
theorem NewDataLoader_ignores_CacheMap :
    presetMap.Get (Value.int 1) = some (Future.value (Value.int 5)) ∧
    (∀ (fn : BatchLoadFn W) (o : Options) (w : W) (ck : Value),
      (NewDataLoader fn (some o) w).futureCache.Get ck = none) ∧
    Load (NewDataLoader doubleKeys (some optionsWithMap) ()) (Value.int 1) =
      (some (Value.int 2, none),
        (Load (NewDataLoader doubleKeys (some optionsWithMap) ()) (Value.int 1)).2) ∧
    (Load (NewDataLoader doubleKeys (some optionsWithMap) ()) (Value.int 1)).2.calls =
      [[Value.int 1]] ∧
    (Prime (NewDataLoader doubleKeys (some optionsWithMap) ()) (Value.int 2)
      (Value.int 9)).futureCache.Get (Value.int 2) = some (Future.value (Value.int 9)) ∧
    presetMap.Get (Value.int 2) = none := by
  refine ⟨by rfl, fun _ _ _ _ => rfl, by rfl, by rfl, by rfl, by rfl⟩

end Dataloader
